import Mathlib

/-!
Shallow embedding of the CDCL SAT solver in `src/CDCL/cdcl_solver.py`.

Conventions used throughout the embedding:
* Python lists indexed by variable (`value`, `antecedent`, `decision_level`)
  become total maps `Nat → Int`; the solver only ever reads and writes
  indices `0..num_literals` (index 0 is unused, as in the source).
* Python dicts become insertion-ordered association lists, matching the
  iteration order of CPython dicts.
* Python sets become duplicate-free lists with set operations
  (`setInsert`, `List.erase`, membership); only membership, length,
  insertion, and removal of these sets are ever observed, never an
  iteration order, except where noted. Python frozensets of sorted
  clauses, and the solver-internal clause sets of `conflict_analysis`,
  are kept as ascending duplicate-free lists (`canon`), so that list
  equality coincides with set equality. Where the source iterates a set
  and the iteration order is reflected in the state (the literal order
  of a stored learned clause, the pairing of random draws with literals),
  we fix the ascending order as the canonical representative, with a
  comment at the site.
* Fallible operations (Python exceptions: IndexError, KeyError,
  ZeroDivisionError on `int(lit/0)`, `set.remove` on a missing element)
  return `Option`, with `none` for the raising branch.
* The unbounded `while` loops take an explicit fuel argument; `none` also
  stands for running out of fuel. All claims are partial-correctness
  statements about `some` results, so fuel exhaustion never masquerades
  as an answer.
* Python's `random.choice` / `random.uniform` draws are threaded through
  an explicit stream of choices (`Rng`); a theorem quantified over all
  streams covers every behaviour of the randomized source.
-/

set_option maxHeartbeats 1000000

namespace CDCL

/-- Branching heuristic selector, `heuristic` in the source. -/
inductive Heuristic where
  | random | order | twoclause | vsids
deriving DecidableEq, Repr

/-- Result of `check_clause_status`: the strings SAT / UNSAT /
undetermined, or the unit literal (the `isinstance(feedback, int)` case). -/
inductive ClauseStatus where
  | sat
  | unsat
  | undetermined
  | unit (l : Int)
deriving DecidableEq, Repr

/-- Explicit stream of random draws standing for Python's `random`:
`choices` feeds `random.choice` (an index into the list, taken mod its
length) and `uniforms` feeds `random.uniform`. -/
structure Rng where
  choices : List Nat
  uniforms : List ℚ
deriving Repr

/-- Pop the next `random.choice` index (default 0 when the stream is dry;
a theorem over all streams still covers every real draw). -/
def Rng.nextChoice : Rng → Nat × Rng
  | ⟨[], u⟩ => (0, ⟨[], u⟩)
  | ⟨n :: r, u⟩ => (n, ⟨r, u⟩)

/-- Pop the next `random.uniform(0.000001, 1)` draw (default 1/2). -/
def Rng.nextUniform : Rng → ℚ × Rng
  | ⟨c, []⟩ => (1/2, ⟨c, []⟩)
  | ⟨c, q :: r⟩ => (q, ⟨c, r⟩)

/-- Insert into a duplicate-free list standing for a Python set
(`set.add`): a no-op when present, appended when absent. -/
def setInsert {α : Type} [DecidableEq α] (x : α) (s : List α) : List α :=
  if x ∈ s then s else s ++ [x]

/-- Insert a literal into an ascending duplicate-free list (the
canonical representative of a set of literals). -/
def slInsert (x : Int) : List Int → List Int
  | [] => [x]
  | y :: ys => if x < y then x :: y :: ys else if x = y then y :: ys else y :: slInsert x ys

/-- The canonical form of a collection of literals: the ascending
duplicate-free list. This represents both `frozenset(sorted(clause))`
and the Python sets of literals inside `conflict_analysis` (equality of
canonical lists is equality of the sets). -/
def canon (c : List Int) : List Int :=
  c.foldl (fun acc x => slInsert x acc) []

/-- The solver state: the fields of `CDCLSolver.__init__`, in source order. -/
structure Solver where
  formula : List (List Int)
  numLiterals : Nat
  heuristic : Heuristic
  assignedLits : List Nat
  value : Nat → Int
  antecedent : Nat → Int
  decisionLevel : Nat → Int
  pickBranchingCount : Nat
  assignmentHistory : List (Int × List Int)
  sortedOriginalFormulaSet : List (List Int)
  sortedNewClauseSet : List (List Int)
  eliminatePureLiteral : Bool
  pureLiteralCount : Nat
  twoClauseDict : List (Nat × Nat)
  vsidsActivity : Int → ℚ
  prevChosenLiteral : Int
  generateProof : Bool
  kappaConflictClause : Option Int
  clauseidToParents : List (Int × List Int)
  randomRestart : Bool
  newClauseLimit : ℚ
  randomRestartCount : Nat

/-- Pointwise update of a variable-indexed map. -/
def upd (f : Nat → Int) (k : Nat) (x : Int) : Nat → Int :=
  fun j => if j = k then x else f j

/-- Pointwise update of a literal-indexed activity map. -/
def updQ (f : Int → ℚ) (k : Int) (x : ℚ) : Int → ℚ :=
  fun j => if j = k then x else f j

@[simp] theorem upd_same (f : Nat → Int) (k : Nat) (x : Int) : upd f k x k = x := by
  simp [upd]

theorem upd_other (f : Nat → Int) {k j : Nat} (x : Int) (h : j ≠ k) : upd f k x j = f j := by
  simp [upd, h]

/-- Literal `l` is true under `value` (the first branch of the scan in
`check_clause_status`). -/
def litTrue (value : Nat → Int) (l : Int) : Prop :=
  (l < 0 ∧ value l.natAbs = -1) ∨ (0 < l ∧ value l.natAbs = 1)

/-- Literal `l` is false under `value` (the second branch of the scan). -/
def litFalse (value : Nat → Int) (l : Int) : Prop :=
  (l < 0 ∧ value l.natAbs = 1) ∨ (0 < l ∧ value l.natAbs = -1)

instance (value : Nat → Int) (l : Int) : Decidable (litTrue value l) := by
  unfold litTrue; infer_instance

instance (value : Nat → Int) (l : Int) : Decidable (litFalse value l) := by
  unfold litFalse; infer_instance

/-- `assign_value`: sets value to the sign of the literal, records the
antecedent and level, and adds the variable to the assigned set.
`int(lit / index)` with `index = abs(lit)` is exactly the sign; for
`lit = 0` Python raises ZeroDivisionError, modelled by `none`. -/
def assignValue (s : Solver) (lit ante lvl : Int) : Option Solver :=
  if lit = 0 then none
  else
    let v := lit.natAbs
    some { s with
      value := upd s.value v (if 0 < lit then 1 else -1)
      antecedent := upd s.antecedent v ante
      decisionLevel := upd s.decisionLevel v lvl
      assignedLits := setInsert v s.assignedLits }

/-- The tail-recursive scan of `check_clause_status`, carrying
`unit_lit`, `num_unassigned`, `num_false` and the total clause length.
An early return fires on the first true literal; a literal that is
neither true, false nor unassigned at index 0 cannot occur since the
three cases are exhaustive for nonzero literals and literal 0 always
takes the unassigned branch of the source (`value[0] == 0`). -/
def statusScan (value : Nat → Int) : List Int → Int → Nat → Nat → Nat → ClauseStatus
  | [], unitLit, numUnassigned, numFalse, len =>
    if len = numFalse then .unsat
    else if numUnassigned = 1 then .unit unitLit
    else .undetermined
  | l :: rest, unitLit, numUnassigned, numFalse, len =>
    if litTrue value l then .sat
    else if litFalse value l then statusScan value rest unitLit numUnassigned (numFalse + 1) len
    else if value l.natAbs = 0 then statusScan value rest l (numUnassigned + 1) numFalse len
    else statusScan value rest unitLit numUnassigned numFalse len

/-- `check_clause_status`. -/
def checkClauseStatus (value : Nat → Int) (clause : List Int) : ClauseStatus :=
  statusScan value clause 0 0 0 clause.length

/-- Association-list find, mirroring a Python dict read. -/
def dictFind? {β : Type} (d : List (Int × β)) (k : Int) : Option β :=
  (d.find? (fun p => p.1 = k)).map (·.2)

/-- Python dict write: update the existing entry in place (keeping its
position) or append a new one. -/
def dictSet {β : Type} (d : List (Int × β)) (k : Int) (v : β) : List (Int × β) :=
  if d.any (fun p => p.1 = k) then
    d.map (fun p => if p.1 = k then (k, v) else p)
  else d ++ [(k, v)]

/-- Nat-keyed association-list read with the `defaultdict(int)` default. -/
def ndictGet (d : List (Nat × Nat)) (k : Nat) : Nat :=
  ((d.find? (fun p => p.1 = k)).map (·.2)).getD 0

/-- Nat-keyed dict write (update in place or append). -/
def ndictSet (d : List (Nat × Nat)) (k : Nat) (v : Nat) : List (Nat × Nat) :=
  if d.any (fun p => p.1 = k) then
    d.map (fun p => if p.1 = k then (k, v) else p)
  else d ++ [(k, v)]

/-- `two_clause_count[k] += 1` on a `defaultdict(int)`: a missing key
counts as 0 and the increment inserts it at the end. -/
def ndictBump (d : List (Nat × Nat)) (k : Nat) : List (Nat × Nat) :=
  ndictSet d k (ndictGet d k + 1)

/-- Read `assignment_history[k]`; `none` is Python's KeyError. -/
def histFind? (s : Solver) (k : Int) : Option (List Int) :=
  dictFind? s.assignmentHistory k

/-- `assignment_history[k] = v`. -/
def histSet (s : Solver) (k : Int) (v : List Int) : Solver :=
  { s with assignmentHistory := dictSet s.assignmentHistory k v }

/-- `assignment_history[k].extend(ls)`; `none` when the key is missing
(Python would raise KeyError). -/
def histExtend (s : Solver) (k : Int) (ls : List Int) : Option Solver :=
  match histFind? s k with
  | none => none
  | some old => some (histSet s k (old ++ ls))

/-- `all_variables_assigned`. -/
def allVariablesAssigned (s : Solver) : Bool :=
  s.assignedLits.length = s.numLiterals

/-- `backtrack`: reset every variable whose decision level exceeds the
backtrack level. `assigned_lits.remove` raises KeyError when the
variable is absent, hence the `Option`. -/
def backtrackStep (β : Int) (acc : Option Solver) (v : Nat) : Option Solver := do
  let s ← acc
  if β < s.decisionLevel v then
    if v ∈ s.assignedLits then
      some { s with
        value := upd s.value v 0
        decisionLevel := upd s.decisionLevel v (-1)
        antecedent := upd s.antecedent v (-1)
        assignedLits := s.assignedLits.erase v }
    else none
  else some s

/-- `backtrack(backtrack_decision_level)`: the variable sweep over
`1..num_literals`, then deletion of all history keys above the level,
then clearing the recorded conflict clause. -/
def backtrack (s : Solver) (β : Int) : Option Solver := do
  let s₁ ← (List.range' 1 s.numLiterals).foldl (backtrackStep β) (some s)
  some { s₁ with
    assignmentHistory := s₁.assignmentHistory.filter (fun p => p.1 ≤ β)
    kappaConflictClause := none }

/-- The initial pass `find_unit_clauses` inside `unit_propagation`:
collect (unit literal, clause id) pairs, suppressing duplicate literals
via `unit_clause_set`. UNSAT feedback is ignored here, exactly as in the
source. The pending list is kept most-recent-first, so that Python's
`list.append` is cons and `list.pop()` (from the end) is head. -/
def findUnitScan (value : Nat → Int) :
    List (List Int) → Int → List (Int × Int) → List Int →
    List (Int × Int) × List Int
  | [], _, q, seen => (q, seen)
  | c :: rest, i, q, seen =>
    match checkClauseStatus value c with
    | .unit l =>
      if l ∈ seen then findUnitScan value rest (i + 1) q seen
      else findUnitScan value rest (i + 1) ((l, i) :: q) (setInsert l seen)
    | _ => findUnitScan value rest (i + 1) q seen

/-- The rescan of the whole formula after each unit assignment: queue any
new unit, return the index of the first conflicting clause. -/
def rescan (value : Nat → Int) :
    List (List Int) → Int → List (Int × Int) → List Int →
    Except Int (List (Int × Int) × List Int)
  | [], _, q, seen => .ok (q, seen)
  | c :: rest, i, q, seen =>
    match checkClauseStatus value c with
    | .sat => rescan value rest (i + 1) q seen
    | .undetermined => rescan value rest (i + 1) q seen
    | .unit l =>
      if l ∈ seen then rescan value rest (i + 1) q seen
      else rescan value rest (i + 1) ((l, i) :: q) (setInsert l seen)
    | .unsat => .error i

/-- The `while unit_clauses:` loop of `unit_propagation`: pop a pending
unit (with its antecedent clause id), drop it from the suppression set,
assign it at the current level, append it to the history of that level,
then rescan the formula. A conflict also records `kappa_conflict_clause`
when proof generation is on. -/
def unitPropLoop (lvl : Int) :
    Nat → Solver → List (Int × Int) → List Int → Option (Int × Solver)
  | 0, _, _, _ => none
  | _ + 1, s, [], _ => some (-111, s)
  | n + 1, s, (u, a) :: q, seen => do
    let s₁ ← assignValue s u a lvl
    let s₂ ← histExtend s₁ lvl [u]
    match rescan s₂.value s₂.formula 0 q (seen.erase u) with
    | .error i =>
      some (i, if s₂.generateProof then { s₂ with kappaConflictClause := some i } else s₂)
    | .ok (q₁, seen₁) => unitPropLoop lvl n s₂ q₁ seen₁

/-- `unit_propagation(decision_lvl)`: returns the conflicting clause id,
or the sentinel -111 when propagation reaches a fixpoint. -/
def unitPropagation (fuel : Nat) (s : Solver) (lvl : Int) : Option (Int × Solver) :=
  let (q, seen) := findUnitScan s.value s.formula 0 [] []
  unitPropLoop lvl fuel s q seen

/-- `pure_literal_elimination`: the set of all literals of the formula.
The source builds a Python set; only membership is ever observed. -/
def literalSet (f : List (List Int)) : List Int :=
  f.foldl (fun acc c => c.foldl (fun a l => setInsert l a) acc) []

/-- The pure literals, one occurrence each. The source iterates a Python
set to assign them; since distinct pure literals have distinct variables
(a literal and its negation cannot both be pure unless neither occurs),
the final state does not depend on the iteration order, and any
duplicate-free enumeration represents it. -/
def pureLiteralList (f : List (List Int)) : List Int :=
  (f.flatten.filter (fun l => -l ∉ literalSet f)).dedup

/-- `pure_literal_elimination`: assign every pure literal with sentinel
antecedent -1 at the permanent level -999, and record the count. -/
def pureLiteralElimination (s : Solver) : Option Solver := do
  let pures := pureLiteralList s.formula
  let s₁ ← pures.foldlM (fun t l => assignValue t l (-1) (-999)) s
  some { s₁ with pureLiteralCount := pures.length }

/-- Clause lookup `self.formula[i]` for an id coming from `antecedent` or
a conflict return. Negative python indices would wrap around; they never
occur here (the only negative antecedent, -1, is filtered before every
lookup), so the embedding returns `none` for them. -/
def getClause? (f : List (List Int)) (i : Int) : Option (List Int) :=
  if 0 ≤ i then f.get? i.toNat else none

/-- `find_latest_assignment` inside `conflict_analysis`: the most recent
literal of `assignment_history[lvl]` that was propagated (has a real
antecedent) and whose variable occurs in the current learnt clause.
Returns `none` both when no such literal exists (Python falls off the
function and returns None). -/
def findLatestAssignment (s : Solver) (hist : List Int) (learnt : List Int) : Option Int :=
  hist.reverse.find? (fun l =>
    (s.antecedent l.natAbs ≠ -1 : Bool) && (decide (l ∈ learnt) || decide (-l ∈ learnt)))

/-- `resolve(clause_one, clause_two)`: fold the literals of the second
clause into the set of the first, cancelling complementary pairs. The
set is kept in canonical (ascending duplicate-free) form. -/
def resolve (c₁ : List Int) (c₂ : List Int) : List Int :=
  c₂.foldl (fun acc l => if -l ∈ acc then acc.erase (-l) else slInsert l acc) c₁

/-- The `while learnt_clause != prev_learnt_clause:` loop of
`find_one_uip_cut`. Reading `assignment_history[lvl]` raises KeyError on
a missing key, hence the bind. Exits: the while condition, no latest
assignment (UIP reached), or a single current-level literal at a nonzero
level. -/
def uipLoop (s : Solver) (lvl : Int) :
    Nat → List Int → List Int → List Int → Option (List Int × List Int)
  | 0, _, _, _ => none
  | n + 1, learnt, prev, parents =>
    if learnt = prev then some (learnt, parents)
    else
      let numCur := (learnt.filter (fun l => s.decisionLevel l.natAbs = lvl)).length
      match histFind? s lvl with
      | none => none
      | some hist =>
        match findLatestAssignment s hist learnt with
        | none => some (learnt, parents)
        | some p =>
          if numCur = 1 ∧ lvl ≠ 0 then some (learnt, parents)
          else do
            let a := s.antecedent p.natAbs
            let cl ← getClause? s.formula a
            uipLoop s lvl n (resolve learnt cl) learnt
              (if s.generateProof then parents ++ [a] else parents)

/-- `find_one_uip_cut(conflict_clause)`: run the resolution loop starting
from the conflict clause. The initial parent list holds
`kappa_conflict_clause` (None when proofs are off; the list is then never
stored, and we use -111 as the stand-in for None). -/
def findOneUipCut (fuel : Nat) (s : Solver) (conflictClause : List Int) (lvl : Int) :
    Option (List Int × List Int) :=
  uipLoop s lvl fuel (canon conflictClause) [] [s.kappaConflictClause.getD (-111)]

/-- `update_two_clause(two_clause)`: bump the count of each variable of a
freshly learned binary clause. The source iterates the clause set; the
two variables are distinct, so only the insertion order of genuinely new
keys depends on it, and the canonical (ascending) order stands for it. -/
def updateTwoClause (s : Solver) (c : List Int) : Solver :=
  { s with twoClauseDict := c.foldl (fun d l => ndictBump d l.natAbs) s.twoClauseDict }

/-- VSIDS additive bump `vsids_activity[lit] += 1`. -/
def vsidsBump (s : Solver) (l : Int) : Solver :=
  { s with vsidsActivity := updQ s.vsidsActivity l (s.vsidsActivity l + 1) }

/-- `vsids_multiplicative_boost(lit)`: multiply the literal's activity by
`1 + u` for a fresh uniform draw `u`. -/
def vsidsMultiplicativeBoost (s : Solver) (rng : Rng) (l : Int) : Solver × Rng :=
  let (u, rng₁) := rng.nextUniform
  ({ s with vsidsActivity := updQ s.vsidsActivity l (s.vsidsActivity l * (1 + u)) }, rng₁)

/-- The per-literal bookkeeping on a freshly added learned clause: for
every literal, additive bump then multiplicative boost. The source
iterates the clause set; each draw of the boost is consumed by one
literal, and the canonical ascending order stands for the iteration (any
other order corresponds to a permuted random stream). -/
def bumpLearnt (s : Solver) (rng : Rng) (c : List Int) : Solver × Rng :=
  c.foldl
    (fun (p : Solver × Rng) l => vsidsMultiplicativeBoost (vsidsBump p.1 l) p.2 l)
    (s, rng)

/-- The backtrack level at the end of `conflict_analysis`: the greatest
decision level of a learnt literal strictly below the conflict level,
defaulting to 0. A fold over the clause set; max is order-insensitive. -/
def backtrackLvlOf (s : Solver) (c : List Int) (lvl : Int) : Int :=
  c.foldl
    (fun b l => if s.decisionLevel l.natAbs < lvl then max (s.decisionLevel l.natAbs) b else b) 0

/-- `conflict_analysis(conflict_clause_id, conflict_decision_lvl)`:
derive the 1-UIP cut, handle the empty clause (UNSAT, backtrack level
-1), otherwise add the learnt clause to the database unless it is a
duplicate (updating the heuristics), and compute the backtrack level.
The learned clause is stored as `list(new_clause)` of a Python set; we
store the ascending order as the canonical representative (no observable
behaviour depends on the stored literal order). -/
def conflictAnalysis (fuel : Nat) (s : Solver) (conflictId lvl : Int) (rng : Rng) :
    Option (Int × Solver × Rng) := do
  let conflictClause ← getClause? s.formula conflictId
  let (newClause, parents) ← findOneUipCut fuel s conflictClause lvl
  if newClause = [] then
    let s₁ :=
      if s.generateProof then
        { s with
          formula := s.formula ++ [[0]]
          clauseidToParents :=
            dictSet s.clauseidToParents (s.formula.length : Int) parents }
      else s
    some (-1, s₁, rng)
  else
    let sortedNewClause := newClause
    let (s₁, rng₁) :=
      if sortedNewClause ∉ s.sortedOriginalFormulaSet ∧
          sortedNewClause ∉ s.sortedNewClauseSet then
        let t₀ := { s with
          formula := s.formula ++ [newClause]
          sortedNewClauseSet := setInsert sortedNewClause s.sortedNewClauseSet }
        let t₁ :=
          if t₀.generateProof then
            { t₀ with clauseidToParents :=
                dictSet t₀.clauseidToParents (s.formula.length : Int) parents }
          else t₀
        let t₂ :=
          if t₁.heuristic = .twoclause ∧ newClause.length = 2 then updateTwoClause t₁ newClause
          else t₁
        bumpLearnt t₂ rng newClause
      else (s, rng)
    some (backtrackLvlOf s₁ newClause lvl, s₁, rng₁)

/-- `random.choice(lst)`: pick the element at the next stream index
(mod the length); raises IndexError on an empty list. -/
def randChoice {α : Type} [Inhabited α] (rng : Rng) (lst : List α) : Option (α × Rng) :=
  if lst.isEmpty then none
  else
    let (n, rng₁) := rng.nextChoice
    some (lst.getD (n % lst.length) default, rng₁)

/-- `ordered_selection`: the smallest unassigned variable, random sign.
When every variable is assigned the source falls off the function and
returns None, which makes the caller crash on `abs(None)`; the embedding
returns `none` at that point. -/
def orderedSelection (s : Solver) (rng : Rng) : Option (Int × Rng) :=
  match (List.range' 1 s.numLiterals).find? (fun v => s.value v = 0) with
  | some v => randChoice rng [(v : Int), -(v : Int)]
  | none => none

/-- `random_selection`: uniform unassigned variable, random sign. -/
def randomSelection (s : Solver) (rng : Rng) : Option (Int × Rng) := do
  let unassigned := (List.range' 1 s.numLiterals).filter (fun v => s.value v = 0)
  let (v, rng₁) ← randChoice rng unassigned
  randChoice rng₁ [(v : Int), -(v : Int)]

/-- Stable insertion into a list sorted by the strict order `lt`: the
new element goes before the first element not strictly below it. Folding
from the right yields a stable ascending sort, agreeing with Python's
`sorted`. -/
def insertStable {α : Type} (lt : α → α → Bool) (x : α) : List α → List α
  | [] => [x]
  | y :: ys => if lt y x then y :: insertStable lt x ys else x :: y :: ys

/-- Stable ascending sort by the strict order `lt`, modelling Python's
`sorted` (and, below, the pop order of a heap). -/
def sortStable {α : Type} (lt : α → α → Bool) (l : List α) : List α :=
  l.foldr (insertStable lt) []

/-- `two_clause_selection`: sort the dict items by count (Python's
`sorted` is stable and ascending), walk the keys in that order, return
the first unassigned one with a random sign, falling back to random
selection. -/
def twoClauseSelection (s : Solver) (rng : Rng) : Option (Int × Rng) :=
  let sortedKeys := (sortStable (fun a b => a.2 < b.2) s.twoClauseDict).map (·.1)
  match sortedKeys.find? (fun k => s.value k = 0) with
  | some k => randChoice rng [(k : Int), -(k : Int)]
  | none => randomSelection s rng

/-- The heap content of `vsids_selection`: for every unassigned variable,
the pairs (-activity, literal) for both signs, in ascending variable
order. -/
def vsidsPairs (s : Solver) : List (ℚ × Int) :=
  ((List.range' 1 s.numLiterals).filter (fun v => s.value v = 0)).flatMap
    (fun v =>
      [(-s.vsidsActivity (v : Int), (v : Int)),
       (-s.vsidsActivity (-(v : Int)), -(v : Int))])

/-- Strict ascending lexicographic order on (-activity, literal) pairs:
`heappop` yields the tuples in this order (no two entries share both
components, since the literals are distinct). -/
def tupleLt (p q : ℚ × Int) : Bool :=
  decide (p.1 < q.1) || (decide (p.1 = q.1) && decide (p.2 < q.2))

/-- `vsids_selection`: pop the heap (equivalently, walk the pairs in
ascending tuple order) until a literal different from the previous
decision appears; fall back to random selection when exhausted. -/
def vsidsSelection (s : Solver) (rng : Rng) : Option (Int × Rng) :=
  let sorted := sortStable tupleLt (vsidsPairs s)
  match sorted.find? (fun p => p.2 ≠ s.prevChosenLiteral) with
  | some p => some (p.2, rng)
  | none => randomSelection s rng

/-- `self.selection`, the heuristic dispatch fixed in `__init__`. -/
def selection (s : Solver) (rng : Rng) : Option (Int × Rng) :=
  match s.heuristic with
  | .random => randomSelection s rng
  | .order => orderedSelection s rng
  | .twoclause => twoClauseSelection s rng
  | .vsids => vsidsSelection s rng

/-- Clause-keyed dict write (update in place or append), for
`new_clause_activity`. -/
def fdictSet (d : List (List Int × ℚ)) (k : List Int) (v : ℚ) :
    List (List Int × ℚ) :=
  if d.any (fun p => p.1 = k) then
    d.map (fun p => if p.1 = k then (k, v) else p)
  else d ++ [(k, v)]

/-- The `new_clause_activity` dict of `restart_and_forget`: mean literal
activity, keyed by canonical clause, over the formula slice past the
original set size. Iteration order of the resulting dict is insertion
order. -/
def newClauseActivity (s : Solver) : List (List Int × ℚ) :=
  (s.formula.drop s.sortedOriginalFormulaSet.length).foldl
    (fun d c => fdictSet d (canon c) ((c.map s.vsidsActivity).sum / (c.length : ℚ))) []

/-- The entry of the Python min-heap of (-activity, clause) pairs that
`max_heap[0]` denotes: the one with the greatest activity. With pairwise
distinct activities (the hypothesis of every theorem using this model)
the entry is unique; `none` models IndexError on an empty heap. -/
def maxActivityEntry (h : List (ℚ × List Int)) : Option (ℚ × List Int) :=
  match h with
  | [] => none
  | x :: xs => some (xs.foldl (fun best y => if best.1 < y.1 then y else best) x)

/-- One step of the heap loop in `restart_and_forget`: push while below
capacity, else compare with the most active held clause and
`heapreplace` (drop the max, insert the new) when strictly lower. The
heap is modelled by its multiset of entries, which the heap operations
determine exactly when activities are distinct. -/
def forgetHeapStep (keep : Nat) (heap : List (ℚ × List Int)) (item : List Int × ℚ) :
    Option (List (ℚ × List Int)) :=
  if heap.length < keep then some ((item.2, item.1) :: heap)
  else
    match maxActivityEntry heap with
    | none => none
    | some m =>
      if item.2 < m.1 then
        some ((item.2, item.1) :: heap.eraseP (fun y => decide (y.1 = m.1)))
      else some heap

/-- `restart_and_forget`: grow the limit by the factor 1.5, keep the
`int(c/2)` clauses of lowest mean activity in the heap, remove exactly
those clauses from the formula and the learned set, and backtrack to
level 0. -/
def restartAndForget (s : Solver) : Option Solver := do
  let s₀ := { s with newClauseLimit := s.newClauseLimit * (3 / 2 : ℚ) }
  let keep := s₀.sortedNewClauseSet.length / 2
  let heap ← (newClauseActivity s₀).foldlM (forgetHeapStep keep) []
  let toRemove : List (List Int) := heap.map (·.2)
  let s₁ := { s₀ with
    formula := s₀.formula.filter (fun c => canon c ∉ toRemove)
    sortedNewClauseSet := s₀.sortedNewClauseSet.filter (fun c => c ∉ toRemove) }
  backtrack s₁ 0

/-- The restart trigger in the main loop:
`len(sorted_new_clause_set) > new_clause_limit` with restarts enabled. -/
def restartTrigger (s : Solver) : Bool :=
  s.randomRestart && decide (s.newClauseLimit < (s.sortedNewClauseSet.length : ℚ))

/-- One iteration body of the `while` loop of `cdcl` after the restart
check: propagate; on conflict analyse, stop with UNSAT on a negative
backtrack level or backtrack; on fixpoint either finish with SAT or make
a decision (bumping the decision literal) and continue via `recur`. -/
def cdclStep (recur : Rng → Solver → Int → Option (Bool × Solver))
    (fuel : Nat) (rng : Rng) (s : Solver) (lvl : Int) : Option (Bool × Solver) := do
  let (cid, s₁) ← unitPropagation fuel s lvl
  if 0 ≤ cid then do
    let (β, s₂, rng₁) ← conflictAnalysis fuel s₁ cid lvl rng
    if β < 0 then some (false, s₂)
    else do
      let s₃ ← backtrack s₂ β
      recur rng₁ s₃ β
  else if allVariablesAssigned s₁ then some (true, s₁)
  else do
    let (p, rng₁) ← selection s₁ rng
    let s₂ := histSet
      { s₁ with prevChosenLiteral := p, pickBranchingCount := s₁.pickBranchingCount + 1 }
      (lvl + 1) [p]
    let s₃ ← assignValue s₂ p (-1) (lvl + 1)
    let (s₄, rng₂) := vsidsMultiplicativeBoost (vsidsBump s₃ p) rng₁ p
    recur rng₂ s₄ (lvl + 1)

/-- The `while not all_variables_assigned():` loop of `cdcl`, with
explicit fuel. The loop returns SAT when the condition fails; otherwise
it first services the restart-and-forget trigger, then runs the step. -/
def cdclLoop : Nat → Rng → Solver → Int → Option (Bool × Solver)
  | 0, _, _, _ => none
  | n + 1, rng, s, lvl =>
    if allVariablesAssigned s then some (true, s)
    else if restartTrigger s then do
      let s₁ ← restartAndForget s
      cdclStep (cdclLoop n) n rng
        { s₁ with randomRestartCount := s₁.randomRestartCount + 1 } 0
    else cdclStep (cdclLoop n) n rng s lvl

/-- `cdcl()`: initialise level 0 and its history entry, optionally run
pure-literal elimination, then loop. -/
def cdcl (fuel : Nat) (rng : Rng) (s : Solver) : Option (Bool × Solver) := do
  let s₀ := histSet s 0 []
  let s₁ ← if s₀.eliminatePureLiteral then pureLiteralElimination s₀ else some s₀
  cdclLoop fuel rng s₁ 0

/-- `CDCLSolver.__init__`. `int(len(formula) / 5)` on a Python float
division truncates to `len / 5` in integers. -/
def initSolver (formula : List (List Int)) (numLiterals : Nat) (h : Heuristic)
    (generateProof eliminatePureLiteral randomRestart : Bool) : Solver where
  formula := formula
  numLiterals := numLiterals
  heuristic := h
  assignedLits := []
  value := fun _ => 0
  antecedent := fun _ => -1
  decisionLevel := fun _ => -1
  pickBranchingCount := 0
  assignmentHistory := []
  sortedOriginalFormulaSet := []
  sortedNewClauseSet := []
  eliminatePureLiteral := eliminatePureLiteral
  pureLiteralCount := 0
  twoClauseDict := []
  vsidsActivity := fun _ => 0
  prevChosenLiteral := 0
  generateProof := generateProof
  kappaConflictClause := none
  clauseidToParents := []
  randomRestart := randomRestart
  newClauseLimit := ((formula.length / 5 : Nat) : ℚ)
  randomRestartCount := 0

/-- `pre_process_two_clause`. The first fold builds the local
`two_clause_count` dict over the binary clauses. The second fold is the
transfer loop `for lit, count in enumerate(two_clause_count): ...`:
`enumerate` over a dict yields (position, key) pairs, so it writes
`two_clause_dict[position] = key` (the bug recorded in the spec notes). -/
def preProcessTwoClause (s : Solver) : Solver :=
  let counts : List (Nat × Nat) :=
    s.formula.foldl
      (fun d c =>
        if c.length = 2 then c.foldl (fun d₁ l => ndictBump d₁ l.natAbs) d else d) []
  { s with twoClauseDict :=
      (counts.map (·.1)).enum.foldl (fun d p => ndictSet d p.1 p.2) s.twoClauseDict }

/-- `pre_process_vsids`: one activity bump per literal occurrence. -/
def preProcessVsids (s : Solver) : Solver :=
  { s with vsidsActivity :=
      (s.formula.foldl (fun act c => c.foldl (fun a l => updQ a l (a l + 1)) act)
        s.vsidsActivity) }

/-- The canonical set of the original clauses, built by the loop at the
top of `solve`. -/
def buildOriginalSet (f : List (List Int)) : List (List Int) :=
  f.foldl (fun acc c => setInsert (canon c) acc) []

/-- The pre-processing part of `solve` that precedes the `cdcl()` call:
fill `sorted_original_formula_set` and initialise the chosen heuristic. -/
def preprocessSolve (s : Solver) : Solver :=
  let s₁ := { s with sortedOriginalFormulaSet := buildOriginalSet s.formula }
  match s₁.heuristic with
  | .twoclause => preProcessTwoClause s₁
  | .vsids => preProcessVsids s₁
  | _ => s₁

/-- Construct the solver and run it up to the satisfiability verdict:
`__init__`, the pre-processing in `solve`, then `cdcl()`. -/
def runSolver (fuel : Nat) (rng : Rng) (formula : List (List Int)) (n : Nat)
    (h : Heuristic) (gp ep rr : Bool) : Option (Bool × Solver) :=
  cdcl fuel rng (preprocessSolve (initSolver formula n h gp ep rr))

/-! ### Characterisation of `check_clause_status` -/

/-- Boolean form of `litTrue`. -/
def isTrueB (value : Nat → Int) (l : Int) : Bool := decide (litTrue value l)

/-- Boolean form of `litFalse`. -/
def isFalseB (value : Nat → Int) (l : Int) : Bool := decide (litFalse value l)

/-- Boolean form of the third branch of the scan: neither true nor false,
and unassigned. -/
def isUnassignedB (value : Nat → Int) (l : Int) : Bool :=
  !isTrueB value l && !isFalseB value l && decide (value l.natAbs = 0)

/-- The literal the scan remembers in `unit_lit`: the last element of the
list taking the unassigned branch, else the seed. -/
def lastUnassigned (value : Nat → Int) (init : Int) (l : List Int) : Int :=
  l.foldl (fun acc x => if isUnassignedB value x then x else acc) init

theorem lastUnassigned_cons (value : Nat → Int) (init x : Int) (xs : List Int) :
    lastUnassigned value init (x :: xs)
      = lastUnassigned value (if isUnassignedB value x then x else init) xs := rfl

theorem lastUnassigned_of_notP (value : Nat → Int) (l : List Int)
    (h : ∀ x ∈ l, ¬ isUnassignedB value x = true) :
    ∀ init : Int, lastUnassigned value init l = init := by
  induction l with
  | nil => intro init; rfl
  | cons x xs ih =>
    intro init
    have hx := h x (List.mem_cons_self x xs)
    rw [lastUnassigned_cons, if_neg hx]
    exact ih (fun y hy => h y (List.mem_cons_of_mem x hy)) init

theorem lastUnassigned_unique (value : Nat → Int) (u : Int)
    (hp : isUnassignedB value u = true) (l : List Int) (hu : u ∈ l)
    (huniq : ∀ x ∈ l, isUnassignedB value x = true → x = u) :
    ∀ init : Int, lastUnassigned value init l = u := by
  induction l with
  | nil => cases hu
  | cons x xs ih =>
    intro init
    by_cases hxs : u ∈ xs
    · rw [lastUnassigned_cons]
      exact ih hxs (fun y hy hpy => huniq y (List.mem_cons_of_mem x hy) hpy) _
    · have hxu : x = u := by
        rcases List.mem_cons.mp hu with h | h
        · exact h.symm
        · exact absurd h hxs
      subst hxu
      rw [lastUnassigned_cons, if_pos hp]
      exact lastUnassigned_of_notP value xs
        (fun y hy hpy => hxs (huniq y (List.mem_cons_of_mem x hy) hpy ▸ hy)) x

/-- Closed form of the scan of `check_clause_status`, for arbitrary
accumulator values. -/
theorem statusScan_characterize (value : Nat → Int) (rest : List Int)
    (uLit : Int) (nU nF len : Nat) :
    statusScan value rest uLit nU nF len =
      if rest.any (isTrueB value) then .sat
      else if len = nF + rest.countP (isFalseB value) then .unsat
      else if nU + rest.countP (isUnassignedB value) = 1 then
        .unit (lastUnassigned value uLit rest)
      else .undetermined := by
  induction rest generalizing uLit nU nF with
  | nil =>
    simp [statusScan, lastUnassigned]
  | cons l rest ih =>
    by_cases ht : litTrue value l
    · have hb : isTrueB value l = true := decide_eq_true ht
      simp [statusScan, if_pos ht, List.any_cons, hb]
    · have hb : isTrueB value l = false := decide_eq_false ht
      have hany : (l :: rest).any (isTrueB value) = rest.any (isTrueB value) := by
        rw [List.any_cons, hb, Bool.false_or]
      by_cases hf : litFalse value l
      · have hfb : isFalseB value l = true := decide_eq_true hf
        have hub : isUnassignedB value l = false := by simp [isUnassignedB, hfb]
        have hcf : (l :: rest).countP (isFalseB value)
            = rest.countP (isFalseB value) + 1 := List.countP_cons_of_pos _ _ hfb
        have hcu : (l :: rest).countP (isUnassignedB value)
            = rest.countP (isUnassignedB value) :=
          List.countP_cons_of_neg _ _ (by simp [hub])
        have hstep : statusScan value (l :: rest) uLit nU nF len
            = statusScan value rest uLit nU (nF + 1) len := by
          simp [statusScan, if_neg ht, if_pos hf]
        have hubn : ¬ isUnassignedB value l = true := by simp [hub]
        rw [hstep, ih, hany, hcf, hcu, lastUnassigned_cons, if_neg hubn]
        have harith : nF + (rest.countP (isFalseB value) + 1)
            = nF + 1 + rest.countP (isFalseB value) := by omega
        rw [harith]
      · by_cases hz : value l.natAbs = 0
        · have hfb : isFalseB value l = false := decide_eq_false hf
          have hub : isUnassignedB value l = true := by
            simp [isUnassignedB, hb, hfb, hz]
          have hcf : (l :: rest).countP (isFalseB value)
              = rest.countP (isFalseB value) :=
            List.countP_cons_of_neg _ _ (by simp [hfb])
          have hcu : (l :: rest).countP (isUnassignedB value)
              = rest.countP (isUnassignedB value) + 1 := List.countP_cons_of_pos _ _ hub
          have hstep : statusScan value (l :: rest) uLit nU nF len
              = statusScan value rest l (nU + 1) nF len := by
            simp [statusScan, if_neg ht, if_neg hf, if_pos hz]
          rw [hstep, ih, hany, hcf, hcu, lastUnassigned_cons, if_pos hub]
          have harith : nU + (rest.countP (isUnassignedB value) + 1)
              = nU + 1 + rest.countP (isUnassignedB value) := by omega
          rw [harith]
        · have hfb : isFalseB value l = false := decide_eq_false hf
          have hub : isUnassignedB value l = false := by
            simp [isUnassignedB, hz]
          have hcf : (l :: rest).countP (isFalseB value)
              = rest.countP (isFalseB value) :=
            List.countP_cons_of_neg _ _ (by simp [hfb])
          have hcu : (l :: rest).countP (isUnassignedB value)
              = rest.countP (isUnassignedB value) :=
            List.countP_cons_of_neg _ _ (by simp [hub])
          have hstep : statusScan value (l :: rest) uLit nU nF len
              = statusScan value rest uLit nU nF len := by
            simp [statusScan, if_neg ht, if_neg hf, if_neg hz]
          have hubn : ¬ isUnassignedB value l = true := by simp [hub]
          rw [hstep, ih, hany, hcf, hcu, lastUnassigned_cons, if_neg hubn]

/-- Closed form of `check_clause_status` itself. -/
theorem checkClauseStatus_eq (value : Nat → Int) (c : List Int) :
    checkClauseStatus value c =
      if c.any (isTrueB value) then .sat
      else if c.length = c.countP (isFalseB value) then .unsat
      else if c.countP (isUnassignedB value) = 1 then
        .unit (lastUnassigned value 0 c)
      else .undetermined := by
  simpa using statusScan_characterize value c 0 0 0 c.length

/-- The status is SAT exactly when some literal is true. -/
theorem checkClauseStatus_sat_iff (value : Nat → Int) (c : List Int) :
    checkClauseStatus value c = .sat ↔ ∃ l ∈ c, litTrue value l := by
  rw [checkClauseStatus_eq]
  by_cases h : c.any (isTrueB value)
  · simp only [if_pos h, true_iff]
    rcases List.any_eq_true.mp h with ⟨l, hl, hlt⟩
    exact ⟨l, hl, of_decide_eq_true hlt⟩
  · simp only [if_neg h]
    constructor
    · intro hcon
      split at hcon
      · simp at hcon
      · split at hcon
        · simp at hcon
        · simp at hcon
    · rintro ⟨l, hl, hlt⟩
      exact absurd (List.any_eq_true.mpr ⟨l, hl, decide_eq_true hlt⟩) h

/-- The status is UNSAT exactly when every literal is false. -/
theorem checkClauseStatus_unsat_iff (value : Nat → Int) (c : List Int) :
    checkClauseStatus value c = .unsat ↔ ∀ l ∈ c, litFalse value l := by
  rw [checkClauseStatus_eq]
  by_cases h : c.any (isTrueB value)
  · simp only [if_pos h]
    constructor
    · intro hcon; simp at hcon
    · intro hall
      exfalso
      rcases List.any_eq_true.mp h with ⟨l, hl, hlt⟩
      have hfa := hall l hl
      have ht : litTrue value l := of_decide_eq_true hlt
      rcases ht with ⟨h1, h2⟩ | ⟨h1, h2⟩ <;> rcases hfa with ⟨g1, g2⟩ | ⟨g1, g2⟩ <;> omega
  · simp only [if_neg h]
    constructor
    · intro hcon
      split at hcon
      · next hlen =>
        intro l hl
        have hlen₂ : c.countP (isFalseB value) = c.length := hlen.symm
        have hall := List.countP_eq_length.mp hlen₂
        exact of_decide_eq_true (hall l hl)
      · split at hcon
        · simp at hcon
        · simp at hcon
    · intro hall
      have hlen : c.countP (isFalseB value) = c.length :=
        List.countP_eq_length.mpr (fun l hl => decide_eq_true (hall l hl))
      simp [hlen]

/-- A nonzero literal over a three-valued assignment that is neither true
nor false is unassigned. -/
theorem lit_trichotomy (value : Nat → Int) (l : Int) (hl : l ≠ 0)
    (hv : value l.natAbs = -1 ∨ value l.natAbs = 0 ∨ value l.natAbs = 1)
    (ht : ¬ litTrue value l) (hf : ¬ litFalse value l) : value l.natAbs = 0 := by
  simp only [litTrue, litFalse] at ht hf
  omega

theorem litFalse_not_litTrue (value : Nat → Int) (l : Int) (hf : litFalse value l) :
    ¬ litTrue value l := by
  simp only [litTrue, litFalse] at hf ⊢
  omega

/-- The UNIT case of `check_clause_status`, for clauses of distinct
nonzero literals over a three-valued assignment. -/
theorem checkClauseStatus_unit_iff (value : Nat → Int) (c : List Int)
    (hv : ∀ n, value n = -1 ∨ value n = 0 ∨ value n = 1)
    (h0 : ∀ l ∈ c, l ≠ 0) (hnd : c.Nodup) (u : Int) :
    checkClauseStatus value c = .unit u ↔
      u ∈ c ∧ value u.natAbs = 0 ∧ ∀ l ∈ c, l ≠ u → litFalse value l := by
  rw [checkClauseStatus_eq]
  constructor
  · intro hcon
    split at hcon
    · simp at hcon
    · next hnotany =>
      split at hcon
      · simp at hcon
      · split at hcon
        · next hcount =>
          have hnoTrue : ∀ l ∈ c, ¬ litTrue value l := by
            intro l hl hlt
            exact hnotany (List.any_eq_true.mpr ⟨l, hl, decide_eq_true hlt⟩)
          have hflen : (c.filter (isUnassignedB value)).length = 1 := by
            rw [← List.countP_eq_length_filter]; exact hcount
          rcases List.length_eq_one.mp hflen with ⟨w, hw⟩
          have hwmem : w ∈ c.filter (isUnassignedB value) := by
            rw [hw]; exact List.mem_singleton_self w
          have hwc : w ∈ c := List.mem_of_mem_filter hwmem
          have hpw : isUnassignedB value w = true := List.of_mem_filter hwmem
          have huniq : ∀ x ∈ c, isUnassignedB value x = true → x = w := by
            intro x hx hpx
            have hxf : x ∈ c.filter (isUnassignedB value) :=
              List.mem_filter.mpr ⟨hx, hpx⟩
            rw [hw] at hxf
            simpa using hxf
          have huw : u = w := by
            have hlast := lastUnassigned_unique value w hpw c hwc huniq 0
            rw [hlast] at hcon
            exact (ClauseStatus.unit.inj hcon).symm
          subst huw
          refine ⟨hwc, ?_, ?_⟩
          · have hpu := hpw
            simp only [isUnassignedB, Bool.and_eq_true, decide_eq_true_eq] at hpu
            exact hpu.2
          · intro l hl hne
            by_cases hfa : litFalse value l
            · exact hfa
            · exfalso
              have hzv : value l.natAbs = 0 :=
                lit_trichotomy value l (h0 l hl) (hv _) (hnoTrue l hl) hfa
              have hpl : isUnassignedB value l = true := by
                simp [isUnassignedB, isTrueB, isFalseB, hzv,
                  decide_eq_false (hnoTrue l hl), decide_eq_false hfa]
              exact hne (huniq l hl hpl)
        · simp at hcon
  · rintro ⟨hu, hz, hothers⟩
    have hnotTrue_u : ¬ litTrue value u := by
      unfold litTrue; omega
    have hnotFalse_u : ¬ litFalse value u := by
      unfold litFalse; omega
    have hnoTrue : ∀ l ∈ c, ¬ litTrue value l := by
      intro l hl
      by_cases hlu : l = u
      · exact hlu ▸ hnotTrue_u
      · exact litFalse_not_litTrue value l (hothers l hl hlu)
    have hany : c.any (isTrueB value) = false := by
      rw [List.any_eq_false]
      intro l hl
      simp [isTrueB, hnoTrue l hl]
    have hpu : isUnassignedB value u = true := by
      simp [isUnassignedB, isTrueB, isFalseB, hz,
        decide_eq_false hnotTrue_u, decide_eq_false hnotFalse_u]
    have huniq : ∀ x ∈ c, isUnassignedB value x = true → x = u := by
      intro x hx hpx
      by_contra hne
      have := hothers x hx hne
      simp [isUnassignedB, isFalseB, decide_eq_true this] at hpx
    have hfilter : c.filter (isUnassignedB value) = [u] := by
      have hall : ∀ x ∈ c.filter (isUnassignedB value), x = u :=
        fun x hx => huniq x (List.mem_of_mem_filter hx) (List.of_mem_filter hx)
      have hrep : c.filter (isUnassignedB value)
          = List.replicate (c.filter (isUnassignedB value)).length u :=
        List.eq_replicate_of_mem hall
      have hnodf : (c.filter (isUnassignedB value)).Nodup := hnd.filter _
      have hle : (c.filter (isUnassignedB value)).length ≤ 1 := by
        rw [hrep, List.nodup_replicate] at hnodf
        exact hnodf
      have hge : 1 ≤ (c.filter (isUnassignedB value)).length :=
        List.length_pos.mpr (List.ne_nil_of_mem (List.mem_filter.mpr ⟨hu, hpu⟩))
      have hlen1 : (c.filter (isUnassignedB value)).length = 1 := le_antisymm hle hge
      rw [hrep, hlen1]
      rfl
    have hcount : c.countP (isUnassignedB value) = 1 := by
      rw [List.countP_eq_length_filter, hfilter]
      rfl
    have hlenne : ¬ (c.length = 0 + c.countP (isFalseB value)) := by
      intro hlen
      have hall := List.countP_eq_length.mp (by omega :
        c.countP (isFalseB value) = c.length)
      have := of_decide_eq_true (hall u hu)
      exact hnotFalse_u this
    rw [if_neg (by simp [hany]), if_neg (by simpa using hlenne), if_pos (by simpa using hcount)]
    exact congrArg ClauseStatus.unit (lastUnassigned_unique value u hpu c hu huniq 0)

/-- C5: for every clause of distinct nonzero literals and every
three-valued assignment state, `check_clause_status` returns SAT exactly
when some literal of the clause is true (so SAT dominates every other
answer), UNSAT exactly when every literal is false, and the unique
unassigned literal `u` exactly when `u` is the single unassigned literal
of the clause and all its other literals are false. -/
theorem C5_clause_status_oracle (value : Nat → Int) (clause : List Int)
    (hv : ∀ n, value n = -1 ∨ value n = 0 ∨ value n = 1)
    (h0 : ∀ l ∈ clause, l ≠ 0) (hnd : clause.Nodup) :
    (checkClauseStatus value clause = .sat ↔ ∃ l ∈ clause, litTrue value l) ∧
    (checkClauseStatus value clause = .unsat ↔ ∀ l ∈ clause, litFalse value l) ∧
    (∀ u : Int, checkClauseStatus value clause = .unit u ↔
      u ∈ clause ∧ value u.natAbs = 0 ∧ ∀ l ∈ clause, l ≠ u → litFalse value l) :=
  ⟨checkClauseStatus_sat_iff value clause,
   checkClauseStatus_unsat_iff value clause,
   checkClauseStatus_unit_iff value clause hv h0 hnd⟩

/-- Concrete instantiation of C5: the clause `[1, -2]` under the
assignment `2 ↦ 1` (so literal -2 is false and literal 1 is the single
unassigned one). -/
def c5Value : Nat → Int := fun n => if n = 2 then 1 else 0

/-- Witness for C5 at the clause `[1, -2]` and the state `c5Value`;
the hypotheses are discharged by computation and the instance shows the
oracle reporting UNIT(1). -/
theorem C5_clause_status_oracle_witness :
    ((checkClauseStatus c5Value [1, -2] = .sat ↔ ∃ l ∈ [(1 : Int), -2], litTrue c5Value l) ∧
     (checkClauseStatus c5Value [1, -2] = .unsat ↔ ∀ l ∈ [(1 : Int), -2], litFalse c5Value l) ∧
     (∀ u : Int, checkClauseStatus c5Value [1, -2] = .unit u ↔
       u ∈ [(1 : Int), -2] ∧ c5Value u.natAbs = 0 ∧
       ∀ l ∈ [(1 : Int), -2], l ≠ u → litFalse c5Value l)) ∧
    checkClauseStatus c5Value [1, -2] = .unit 1 :=
  ⟨C5_clause_status_oracle c5Value [1, -2]
      (fun n => by by_cases h : n = 2 <;> simp [c5Value, h])
      (by decide) (by decide),
   by decide⟩

/-! ### C9 / C10: the two-clause heuristic -/

/-- The number of binary (two-literal) clauses of `f` that contain
variable `v` or its negation, as the specification defines
`two_clause_count[v]`. -/
def specBinaryClauseCount (f : List (List Int)) (v : Nat) : Nat :=
  (f.filter (fun c => c.length = 2 && c.any (fun l => l.natAbs = v))).length

/-- C9: the claim says that after pre-processing, `two_clause_dict[v]`
is the number of binary clauses touching variable v. The transfer loop
`for lit, count in enumerate(two_clause_count)` enumerates the dict,
yielding (position, key) pairs, so the code instead stores
`two_clause_dict[position] = key`. On the formula `[[1, 2]]` the
resulting dict is `{0 ↦ 1, 1 ↦ 2}`: the entry for variable 2 is 0 and
the entry for variable 1 is 2, while exactly one binary clause touches
each of the variables 1 and 2. -/
theorem C9_two_clause_preprocess_bug :
    (preProcessTwoClause (initSolver [[1, 2]] 2 .twoclause false false false)).twoClauseDict
        = [(0, 1), (1, 2)] ∧
    ndictGet (preProcessTwoClause
        (initSolver [[1, 2]] 2 .twoclause false false false)).twoClauseDict 2 = 0 ∧
    ndictGet (preProcessTwoClause
        (initSolver [[1, 2]] 2 .twoclause false false false)).twoClauseDict 1 = 2 ∧
    specBinaryClauseCount [[1, 2]] 2 = 1 ∧
    specBinaryClauseCount [[1, 2]] 1 = 1 := by
  decide

/-- The state exercising C10: counts `{1 ↦ 1, 2 ↦ 5}`, both variables
unassigned. -/
def c10State : Solver :=
  { initSolver [[1, 2]] 2 .twoclause false false false with
    twoClauseDict := [(1, 1), (2, 5)] }

/-- C10: the claim says `two_clause_selection` picks an unassigned
variable of HIGHEST two-clause count. The code sorts the dict items by
count with Python's ascending `sorted` (despite its comment reading
"sort by decreasing count") and takes the first unassigned key, i.e. the
LOWEST count: with counts `{1 ↦ 1, 2 ↦ 5}` and both variables
unassigned it returns ±1, never ±2. -/
theorem C10_two_clause_selection_bug :
    (twoClauseSelection c10State ⟨[0], []⟩).map Prod.fst = some 1 ∧
    (twoClauseSelection c10State ⟨[1], []⟩).map Prod.fst = some (-1) ∧
    ndictGet c10State.twoClauseDict 1 = 1 ∧
    ndictGet c10State.twoClauseDict 2 = 5 ∧
    c10State.value 1 = 0 ∧ c10State.value 2 = 0 := by
  decide

/-! ### C1: the counterexample to the claim as stated -/

/-- The run of the solver on the formula made of one empty clause with
zero variables (for instance the DIMACS file whose only clause line is
"0"): no randomness and a single loop iteration are needed. -/
def c1Run : Option (Bool × Solver) :=
  runSolver 1 ⟨[], []⟩ [[]] 0 .order false false false

/-- Counterexample to C1 as stated: on the input formula `[[]]` the main
loop returns SAT at once (all zero variables are assigned before any
propagation runs), yet the empty original clause contains no true
literal under the emitted assignment. -/
theorem C1_sat_soundness_counterexample :
    c1Run.map Prod.fst = some true ∧
    c1Run.map (fun out => decide (∃ l ∈ ([] : List Int), litTrue out.2.value l))
      = some false := by
  constructor <;> rfl

/-! ### C6: backtrack -/

/-- `t` agrees with `s` on every field other than the four per-variable
assignment fields (value, antecedent, decision level, assigned set). -/
def assignFieldsOnly (s t : Solver) : Prop :=
  t.formula = s.formula ∧ t.numLiterals = s.numLiterals ∧ t.heuristic = s.heuristic ∧
  t.pickBranchingCount = s.pickBranchingCount ∧
  t.assignmentHistory = s.assignmentHistory ∧
  t.sortedOriginalFormulaSet = s.sortedOriginalFormulaSet ∧
  t.sortedNewClauseSet = s.sortedNewClauseSet ∧
  t.eliminatePureLiteral = s.eliminatePureLiteral ∧
  t.pureLiteralCount = s.pureLiteralCount ∧
  t.twoClauseDict = s.twoClauseDict ∧ t.vsidsActivity = s.vsidsActivity ∧
  t.prevChosenLiteral = s.prevChosenLiteral ∧ t.generateProof = s.generateProof ∧
  t.kappaConflictClause = s.kappaConflictClause ∧
  t.clauseidToParents = s.clauseidToParents ∧
  t.randomRestart = s.randomRestart ∧ t.newClauseLimit = s.newClauseLimit ∧
  t.randomRestartCount = s.randomRestartCount

theorem assignFieldsOnly_refl (s : Solver) : assignFieldsOnly s s := by
  simp [assignFieldsOnly]

theorem assignFieldsOnly_trans {s t u : Solver}
    (h₁ : assignFieldsOnly s t) (h₂ : assignFieldsOnly t u) : assignFieldsOnly s u := by
  obtain ⟨a1, a2, a3, a4, a5, a6, a7, a8, a9, a10, a11, a12, a13, a14, a15, a16, a17, a18⟩ := h₁
  obtain ⟨b1, b2, b3, b4, b5, b6, b7, b8, b9, b10, b11, b12, b13, b14, b15, b16, b17, b18⟩ := h₂
  exact ⟨b1.trans a1, b2.trans a2, b3.trans a3, b4.trans a4, b5.trans a5, b6.trans a6,
    b7.trans a7, b8.trans a8, b9.trans a9, b10.trans a10, b11.trans a11, b12.trans a12,
    b13.trans a13, b14.trans a14, b15.trans a15, b16.trans a16, b17.trans a17, b18.trans a18⟩

/-- Exact characterisation of the variable sweep of `backtrack` over any
duplicate-free variable list: it succeeds, resets precisely the listed
variables whose level exceeds `β`, and touches nothing else. -/
theorem backtrackLoop_spec (β : Int) (hβ : -1 ≤ β) :
    ∀ (l : List Nat) (s : Solver), s.assignedLits.Nodup →
      (∀ v ∈ l, β < s.decisionLevel v → v ∈ s.assignedLits) →
      ∃ s₁, l.foldl (backtrackStep β) (some s) = some s₁ ∧
        assignFieldsOnly s s₁ ∧ s₁.assignedLits.Nodup ∧
        (∀ w, s₁.value w = if w ∈ l ∧ β < s.decisionLevel w then 0 else s.value w) ∧
        (∀ w, s₁.decisionLevel w
          = if w ∈ l ∧ β < s.decisionLevel w then -1 else s.decisionLevel w) ∧
        (∀ w, s₁.antecedent w
          = if w ∈ l ∧ β < s.decisionLevel w then -1 else s.antecedent w) ∧
        (∀ w, w ∈ s₁.assignedLits ↔
          w ∈ s.assignedLits ∧ ¬ (w ∈ l ∧ β < s.decisionLevel w)) := by
  intro l
  induction l with
  | nil =>
    intro s hnd _
    exact ⟨s, rfl, assignFieldsOnly_refl s, hnd,
      fun w => by simp, fun w => by simp, fun w => by simp, fun w => by simp⟩
  | cons v rest ih =>
    intro s hnd hsync
    by_cases hlt : β < s.decisionLevel v
    · have hv : v ∈ s.assignedLits := hsync v (List.mem_cons_self v rest) hlt
      set s' : Solver := { s with
        value := upd s.value v 0
        decisionLevel := upd s.decisionLevel v (-1)
        antecedent := upd s.antecedent v (-1)
        assignedLits := s.assignedLits.erase v } with hs'
      have hstep : backtrackStep β (some s) v = some s' := by
        simp [backtrackStep, hlt, hv, hs']
      have hnd' : s'.assignedLits.Nodup := hnd.erase v
      have hsync' : ∀ w ∈ rest, β < s'.decisionLevel w → w ∈ s'.assignedLits := by
        intro w hw hwlt
        by_cases hwv : w = v
        · subst hwv
          have : s'.decisionLevel w = -1 := by simp [hs', upd]
          omega
        · have hlev : s'.decisionLevel w = s.decisionLevel w := by
            simp [hs', upd_other _ _ hwv]
          rw [hlev] at hwlt
          have hmem := hsync w (List.mem_cons_of_mem v hw) hwlt
          show w ∈ s.assignedLits.erase v
          rw [hnd.mem_erase_iff]
          exact ⟨hwv, hmem⟩
      obtain ⟨s₁, hfold, hframe, hnd₁, hval, hlev, hant, hmem⟩ := ih s' hnd' hsync'
      refine ⟨s₁, ?_, ?_, hnd₁, ?_, ?_, ?_, ?_⟩
      · rw [List.foldl_cons, hstep]
        exact hfold
      · exact assignFieldsOnly_trans (by simp [assignFieldsOnly, hs']) hframe
      · intro w
        by_cases hwv : w = v
        · subst hwv
          have h₁ : ¬ (w ∈ rest ∧ β < s'.decisionLevel w) := by
            rintro ⟨_, hc⟩
            have : s'.decisionLevel w = -1 := by simp [hs', upd]
            omega
          rw [hval w, if_neg h₁]
          simp [hs', upd, List.mem_cons_self, hlt]
        · have h₂ : s'.decisionLevel w = s.decisionLevel w := by
            simp [hs', upd_other _ _ hwv]
          have h₃ : s'.value w = s.value w := by simp [hs', upd_other _ _ hwv]
          rw [hval w, h₂, h₃]
          by_cases hwr : w ∈ rest ∧ β < s.decisionLevel w
          · rw [if_pos hwr, if_pos ⟨List.mem_cons_of_mem v hwr.1, hwr.2⟩]
          · rw [if_neg hwr, if_neg (by
              rintro ⟨hm, hc⟩
              rcases List.mem_cons.mp hm with h | h
              · exact hwv h
              · exact hwr ⟨h, hc⟩)]
      · intro w
        by_cases hwv : w = v
        · subst hwv
          have h₁ : ¬ (w ∈ rest ∧ β < s'.decisionLevel w) := by
            rintro ⟨_, hc⟩
            have : s'.decisionLevel w = -1 := by simp [hs', upd]
            omega
          rw [hlev w, if_neg h₁]
          simp [hs', upd, List.mem_cons_self, hlt]
        · have h₂ : s'.decisionLevel w = s.decisionLevel w := by
            simp [hs', upd_other _ _ hwv]
          rw [hlev w, h₂]
          by_cases hwr : w ∈ rest ∧ β < s.decisionLevel w
          · rw [if_pos hwr, if_pos ⟨List.mem_cons_of_mem v hwr.1, hwr.2⟩]
          · rw [if_neg hwr, if_neg (by
              rintro ⟨hm, hc⟩
              rcases List.mem_cons.mp hm with h | h
              · exact hwv h
              · exact hwr ⟨h, hc⟩)]
      · intro w
        by_cases hwv : w = v
        · subst hwv
          have h₁ : ¬ (w ∈ rest ∧ β < s'.decisionLevel w) := by
            rintro ⟨_, hc⟩
            have : s'.decisionLevel w = -1 := by simp [hs', upd]
            omega
          rw [hant w, if_neg h₁]
          simp [hs', upd, List.mem_cons_self, hlt]
        · have h₂ : s'.decisionLevel w = s.decisionLevel w := by
            simp [hs', upd_other _ _ hwv]
          have h₃ : s'.antecedent w = s.antecedent w := by
            simp [hs', upd_other _ _ hwv]
          rw [hant w, h₂, h₃]
          by_cases hwr : w ∈ rest ∧ β < s.decisionLevel w
          · rw [if_pos hwr, if_pos ⟨List.mem_cons_of_mem v hwr.1, hwr.2⟩]
          · rw [if_neg hwr, if_neg (by
              rintro ⟨hm, hc⟩
              rcases List.mem_cons.mp hm with h | h
              · exact hwv h
              · exact hwr ⟨h, hc⟩)]
      · intro w
        rw [hmem w]
        by_cases hwv : w = v
        · have h₀ : ¬ w ∈ s'.assignedLits := by
            rw [hwv]
            intro hc
            exact absurd (hnd.mem_erase_iff.mp hc).1 (by simp)
          constructor
          · rintro ⟨hc, _⟩
            exact absurd hc h₀
          · rintro ⟨hmem₂, hneg⟩
            refine absurd ⟨?_, ?_⟩ hneg
            · rw [hwv]; exact List.mem_cons_self v rest
            · rw [hwv]; exact hlt
        · have h₂ : s'.decisionLevel w = s.decisionLevel w := by
            simp [hs', upd_other _ _ hwv]
          have h₄ : w ∈ s'.assignedLits ↔ w ∈ s.assignedLits := by
            show w ∈ s.assignedLits.erase v ↔ _
            rw [hnd.mem_erase_iff]
            exact ⟨fun h => h.2, fun h => ⟨hwv, h⟩⟩
          rw [h₂, h₄]
          constructor
          · rintro ⟨hm, hneg⟩
            exact ⟨hm, by
              rintro ⟨hmm, hc⟩
              rcases List.mem_cons.mp hmm with h | h
              · exact hwv h
              · exact hneg ⟨h, hc⟩⟩
          · rintro ⟨hm, hneg⟩
            exact ⟨hm, by
              rintro ⟨hmm, hc⟩
              exact hneg ⟨List.mem_cons_of_mem v hmm, hc⟩⟩
    · have hstep : backtrackStep β (some s) v = some s := by
        simp [backtrackStep, hlt]
      obtain ⟨s₁, hfold, hframe, hnd₁, hval, hlev, hant, hmem⟩ :=
        ih s hnd (fun w hw => hsync w (List.mem_cons_of_mem v hw))
      refine ⟨s₁, ?_, hframe, hnd₁, ?_, ?_, ?_, ?_⟩
      · rw [List.foldl_cons, hstep]
        exact hfold
      all_goals
        intro w
        first
        | rw [hval w] | rw [hlev w] | rw [hant w] | rw [hmem w]
      case _ =>
        by_cases hwr : w ∈ rest ∧ β < s.decisionLevel w
        · rw [if_pos hwr, if_pos ⟨List.mem_cons_of_mem v hwr.1, hwr.2⟩]
        · rw [if_neg hwr, if_neg (by
            rintro ⟨hm, hc⟩
            rcases List.mem_cons.mp hm with h | h
            · subst h; exact hlt hc
            · exact hwr ⟨h, hc⟩)]
      case _ =>
        by_cases hwr : w ∈ rest ∧ β < s.decisionLevel w
        · rw [if_pos hwr, if_pos ⟨List.mem_cons_of_mem v hwr.1, hwr.2⟩]
        · rw [if_neg hwr, if_neg (by
            rintro ⟨hm, hc⟩
            rcases List.mem_cons.mp hm with h | h
            · subst h; exact hlt hc
            · exact hwr ⟨h, hc⟩)]
      case _ =>
        by_cases hwr : w ∈ rest ∧ β < s.decisionLevel w
        · rw [if_pos hwr, if_pos ⟨List.mem_cons_of_mem v hwr.1, hwr.2⟩]
        · rw [if_neg hwr, if_neg (by
            rintro ⟨hm, hc⟩
            rcases List.mem_cons.mp hm with h | h
            · subst h; exact hlt hc
            · exact hwr ⟨h, hc⟩)]
      case _ =>
        constructor
        · rintro ⟨hm, hneg⟩
          exact ⟨hm, by
            rintro ⟨hmm, hc⟩
            rcases List.mem_cons.mp hmm with h | h
            · subst h; exact hlt hc
            · exact hneg ⟨h, hc⟩⟩
        · rintro ⟨hm, hneg⟩
          exact ⟨hm, by
            rintro ⟨hmm, hc⟩
            exact hneg ⟨List.mem_cons_of_mem v hmm, hc⟩⟩

/-- `t` agrees with `s` on every field that `backtrack` leaves alone
(all but the four assignment fields, the history and the conflict-clause
marker). -/
def backtrackFrame (s t : Solver) : Prop :=
  t.formula = s.formula ∧ t.numLiterals = s.numLiterals ∧ t.heuristic = s.heuristic ∧
  t.pickBranchingCount = s.pickBranchingCount ∧
  t.sortedOriginalFormulaSet = s.sortedOriginalFormulaSet ∧
  t.sortedNewClauseSet = s.sortedNewClauseSet ∧
  t.eliminatePureLiteral = s.eliminatePureLiteral ∧
  t.pureLiteralCount = s.pureLiteralCount ∧
  t.twoClauseDict = s.twoClauseDict ∧ t.vsidsActivity = s.vsidsActivity ∧
  t.prevChosenLiteral = s.prevChosenLiteral ∧ t.generateProof = s.generateProof ∧
  t.clauseidToParents = s.clauseidToParents ∧ t.randomRestart = s.randomRestart ∧
  t.newClauseLimit = s.newClauseLimit ∧ t.randomRestartCount = s.randomRestartCount

/-- Full characterisation of `backtrack`: variable resets, history
pruning, conflict-marker clearing, and the frame. -/
theorem backtrack_spec (s : Solver) (β : Int) (hβ : -1 ≤ β)
    (hnd : s.assignedLits.Nodup)
    (hsync : ∀ v ∈ List.range' 1 s.numLiterals,
      β < s.decisionLevel v → v ∈ s.assignedLits) :
    ∃ s₁, backtrack s β = some s₁ ∧ backtrackFrame s s₁ ∧ s₁.assignedLits.Nodup ∧
      s₁.assignmentHistory = s.assignmentHistory.filter (fun p => decide (p.1 ≤ β)) ∧
      s₁.kappaConflictClause = none ∧
      (∀ w, s₁.value w =
        if w ∈ List.range' 1 s.numLiterals ∧ β < s.decisionLevel w then 0 else s.value w) ∧
      (∀ w, s₁.decisionLevel w =
        if w ∈ List.range' 1 s.numLiterals ∧ β < s.decisionLevel w then -1
        else s.decisionLevel w) ∧
      (∀ w, s₁.antecedent w =
        if w ∈ List.range' 1 s.numLiterals ∧ β < s.decisionLevel w then -1
        else s.antecedent w) ∧
      (∀ w, w ∈ s₁.assignedLits ↔
        w ∈ s.assignedLits ∧
          ¬ (w ∈ List.range' 1 s.numLiterals ∧ β < s.decisionLevel w)) := by
  obtain ⟨s₀, hfold, hframe, hnd₀, hval, hlev, hant, hmem⟩ :=
    backtrackLoop_spec β hβ (List.range' 1 s.numLiterals) s hnd hsync
  obtain ⟨f1, f2, f3, f4, f5, f6, f7, f8, f9, f10, f11, f12, f13, f14, f15, f16, f17, f18⟩ :=
    hframe
  refine ⟨{ s₀ with
      assignmentHistory := s₀.assignmentHistory.filter (fun p => decide (p.1 ≤ β))
      kappaConflictClause := none }, ?_, ?_, hnd₀, ?_, rfl, hval, hlev, hant, hmem⟩
  · rw [backtrack, hfold]
    rfl
  · exact ⟨f1, f2, f3, f4, f6, f7, f8, f9, f10, f11, f12, f13, f15, f16, f17, f18⟩
  · rw [f5]

/-- C6: for every backtrack level β ≥ 0, on a state whose assigned set
is duplicate-free and contains every variable of level above β (as the
solver maintains), `backtrack(β)` succeeds, unassigns exactly the
variables 1..N whose decision level is strictly greater than β
(resetting value to 0, level to -1, antecedent to -1, removing them
from the assigned set), leaves the record of every variable with level
≤ β — including the -999 pure-literal sentinel — unchanged, and
afterwards the assignment history contains only keys ≤ β. -/
theorem C6_backtrack_frame (s : Solver) (β : Int) (hβ : 0 ≤ β)
    (hnd : s.assignedLits.Nodup)
    (hsync : ∀ v ∈ List.range' 1 s.numLiterals,
      β < s.decisionLevel v → v ∈ s.assignedLits) :
    ∃ s₁, backtrack s β = some s₁ ∧
      (∀ v ∈ List.range' 1 s.numLiterals,
        (β < s.decisionLevel v →
          s₁.value v = 0 ∧ s₁.decisionLevel v = -1 ∧ s₁.antecedent v = -1 ∧
          v ∉ s₁.assignedLits) ∧
        (s.decisionLevel v ≤ β →
          s₁.value v = s.value v ∧ s₁.decisionLevel v = s.decisionLevel v ∧
          s₁.antecedent v = s.antecedent v ∧
          (v ∈ s₁.assignedLits ↔ v ∈ s.assignedLits))) ∧
      (∀ p ∈ s₁.assignmentHistory, p.1 ≤ β) := by
  obtain ⟨s₁, hbt, hframe, hnd₁, hhist, hkappa, hval, hlev, hant, hmem⟩ :=
    backtrack_spec s β (by omega) hnd hsync
  refine ⟨s₁, hbt, ?_, ?_⟩
  · intro v hv
    constructor
    · intro hvlt
      refine ⟨?_, ?_, ?_, ?_⟩
      · rw [hval v, if_pos ⟨hv, hvlt⟩]
      · rw [hlev v, if_pos ⟨hv, hvlt⟩]
      · rw [hant v, if_pos ⟨hv, hvlt⟩]
      · rw [hmem v]
        rintro ⟨_, hneg⟩
        exact hneg ⟨hv, hvlt⟩
    · intro hvle
      have hcond : ¬ (v ∈ List.range' 1 s.numLiterals ∧ β < s.decisionLevel v) := by
        rintro ⟨_, hc⟩; omega
      refine ⟨?_, ?_, ?_, ?_⟩
      · rw [hval v, if_neg hcond]
      · rw [hlev v, if_neg hcond]
      · rw [hant v, if_neg hcond]
      · rw [hmem v]
        exact ⟨fun h => h.1, fun h => ⟨h, hcond⟩⟩
  · intro p hp
    rw [hhist] at hp
    have := List.mem_filter.mp hp
    exact of_decide_eq_true this.2

/-- A concrete state for the C6 witness: two variables, variable 1
propagated at level 0 and variable 2 decided at level 1. -/
def c6State : Solver :=
  { initSolver [[1], [-1, 2]] 2 .order false false false with
    assignedLits := [1, 2]
    value := fun v => if v = 1 then 1 else if v = 2 then 1 else 0
    antecedent := fun v => if v = 1 then 0 else -1
    decisionLevel := fun v => if v = 1 then 0 else if v = 2 then 1 else -1
    assignmentHistory := [(0, [1]), (1, [2])] }

/-- Witness for C6: `backtrack(0)` on `c6State`, with every hypothesis
discharged by computation. -/
theorem C6_backtrack_frame_witness :
    ∃ s₁, backtrack c6State 0 = some s₁ ∧
      (∀ v ∈ List.range' 1 c6State.numLiterals,
        ((0 : Int) < c6State.decisionLevel v →
          s₁.value v = 0 ∧ s₁.decisionLevel v = -1 ∧ s₁.antecedent v = -1 ∧
          v ∉ s₁.assignedLits) ∧
        (c6State.decisionLevel v ≤ (0 : Int) →
          s₁.value v = c6State.value v ∧ s₁.decisionLevel v = c6State.decisionLevel v ∧
          s₁.antecedent v = c6State.antecedent v ∧
          (v ∈ s₁.assignedLits ↔ v ∈ c6State.assignedLits))) ∧
      (∀ p ∈ s₁.assignmentHistory, p.1 ≤ (0 : Int)) :=
  C6_backtrack_frame c6State 0 (by decide) (by decide) (by decide)

/-! ### C4: unit propagation -/

/-- Clause `c` is falsified: every literal is false. -/
def clauseFalsified (value : Nat → Int) (c : List Int) : Prop :=
  ∀ l ∈ c, litFalse value l

instance (value : Nat → Int) (c : List Int) : Decidable (clauseFalsified value c) := by
  unfold clauseFalsified; infer_instance

/-- No clause of the formula is falsified under the current assignment. -/
def noFalsified (s : Solver) : Prop :=
  ∀ c ∈ s.formula, ¬ clauseFalsified s.value c

instance (s : Solver) : Decidable (noFalsified s) := by
  unfold noFalsified; infer_instance

/-- Whether a clause status is the unit case. -/
def ClauseStatus.isUnit : ClauseStatus → Bool
  | .unit _ => true
  | _ => false

/-- No clause of the formula is currently unit. -/
def noUnit (s : Solver) : Prop :=
  ∀ c ∈ s.formula, (checkClauseStatus s.value c).isUnit = false

instance (s : Solver) : Decidable (noUnit s) := by
  unfold noUnit; infer_instance

/-- The literal under which variable `v` is currently assigned. -/
def assignedLit (s : Solver) (v : Nat) : Int :=
  if s.value v = 1 then (v : Int) else -(v : Int)

/-- `rescan` returns a conflict id only for a genuinely falsified clause
of the scanned slice, at the offset position. -/
theorem rescan_error_spec (value : Nat → Int) :
    ∀ (rest : List (List Int)) (i : Int) (q : List (Int × Int)) (seen : List Int)
      (j : Int), rescan value rest i q seen = .error j →
      ∃ (k : Nat) (c : List Int), rest.get? k = some c ∧ j = i + (k : Int) ∧
        clauseFalsified value c := by
  intro rest
  induction rest with
  | nil => intro i q seen j h; simp [rescan] at h
  | cons c rest ih =>
    intro i q seen j h
    rw [rescan] at h
    rcases hst : checkClauseStatus value c with _ | _ | _ | l
    · rw [hst] at h
      dsimp only at h
      obtain ⟨k, c₁, hget, hj, hfals⟩ := ih (i + 1) q seen j h
      exact ⟨k + 1, c₁, by simpa using hget, by push_cast at hj ⊢; omega, hfals⟩
    · rw [hst] at h
      dsimp only at h
      injection h with h
      exact ⟨0, c, rfl, by omega,
        checkClauseStatus_unsat_iff value c |>.mp hst⟩
    · rw [hst] at h
      dsimp only at h
      obtain ⟨k, c₁, hget, hj, hfals⟩ := ih (i + 1) q seen j h
      exact ⟨k + 1, c₁, by simpa using hget, by push_cast at hj ⊢; omega, hfals⟩
    · rw [hst] at h
      dsimp only at h
      by_cases hmem : l ∈ seen
      · rw [if_pos hmem] at h
        obtain ⟨k, c₁, hget, hj, hfals⟩ := ih (i + 1) q seen j h
        exact ⟨k + 1, c₁, by simpa using hget, by push_cast at hj ⊢; omega, hfals⟩
      · rw [if_neg hmem] at h
        obtain ⟨k, c₁, hget, hj, hfals⟩ := ih (i + 1) _ _ j h
        exact ⟨k + 1, c₁, by simpa using hget, by push_cast at hj ⊢; omega, hfals⟩

/-- `rescan` returning without a conflict means: no scanned clause is
falsified, every unit literal of the slice ends up in the suppression
set, the queue only grows by valid entries, and the queue/set stay in
sync (duplicate-free literals, set = queue literals). -/
theorem rescan_ok_spec (value : Nat → Int) :
    ∀ (rest : List (List Int)) (i : Int) (q : List (Int × Int)) (seen : List Int)
      (q₁ : List (Int × Int)) (seen₁ : List Int),
      rescan value rest i q seen = .ok (q₁, seen₁) →
      (∀ l : Int, l ∈ seen ↔ ∃ a, (l, a) ∈ q) →
      (q.map Prod.fst).Nodup → seen.Nodup →
      (∀ c ∈ rest, ¬ clauseFalsified value c) ∧
      (∀ c ∈ rest, ∀ l : Int, checkClauseStatus value c = .unit l → l ∈ seen₁) ∧
      (∀ l : Int, l ∈ seen → l ∈ seen₁) ∧
      (∃ newEntries, q₁ = newEntries ++ q) ∧
      (∀ p ∈ q₁, p ∈ q ∨ ∃ (k : Nat) (c : List Int), rest.get? k = some c ∧
        p.2 = i + (k : Int) ∧ checkClauseStatus value c = .unit p.1) ∧
      (∀ l : Int, l ∈ seen₁ ↔ ∃ a, (l, a) ∈ q₁) ∧
      (q₁.map Prod.fst).Nodup ∧ seen₁.Nodup := by
  intro rest
  induction rest with
  | nil =>
    intro i q seen q₁ seen₁ h hsync hnd hnds
    rw [rescan] at h
    injection h with h
    injection h with h₁ h₂
    subst h₁; subst h₂
    exact ⟨by simp, by simp, fun l hl => hl, ⟨[], rfl⟩,
      fun p hp => Or.inl hp, hsync, hnd, hnds⟩
  | cons c rest ih =>
    intro i q seen q₁ seen₁ h hsync hnd hnds
    rw [rescan] at h
    rcases hst : checkClauseStatus value c with _ | _ | _ | l
    · rw [hst] at h
      dsimp only at h
      obtain ⟨ha, hb, hc, hd, he, hf, hg, hh₀⟩ := ih (i + 1) q seen q₁ seen₁ h hsync hnd hnds
      refine ⟨?_, ?_, hc, hd, ?_, hf, hg, hh₀⟩
      · intro c₁ hc₁
        rcases List.mem_cons.mp hc₁ with hh | hh
        · subst hh
          intro hfals
          have := (checkClauseStatus_sat_iff value c₁).mp hst
          obtain ⟨l₀, hl₀, hlt⟩ := this
          have hlf := hfals l₀ hl₀
          exact litFalse_not_litTrue value l₀ hlf hlt
        · exact ha c₁ hh
      · intro c₁ hc₁ l₀ hl₀
        rcases List.mem_cons.mp hc₁ with hh | hh
        · subst hh; rw [hst] at hl₀; cases hl₀
        · exact hb c₁ hh l₀ hl₀
      · intro p hp
        rcases he p hp with hh | ⟨k, c₁, hget, hoff, hu⟩
        · exact Or.inl hh
        · exact Or.inr ⟨k + 1, c₁, by simpa using hget, by push_cast at hoff ⊢; omega, hu⟩
    · rw [hst] at h
      dsimp only at h
      cases h
    · rw [hst] at h
      dsimp only at h
      obtain ⟨ha, hb, hc, hd, he, hf, hg, hh₀⟩ := ih (i + 1) q seen q₁ seen₁ h hsync hnd hnds
      refine ⟨?_, ?_, hc, hd, ?_, hf, hg, hh₀⟩
      · intro c₁ hc₁
        rcases List.mem_cons.mp hc₁ with hh | hh
        · subst hh
          intro hfals
          have := (checkClauseStatus_unsat_iff value c₁).mpr hfals
          rw [hst] at this
          cases this
        · exact ha c₁ hh
      · intro c₁ hc₁ l₀ hl₀
        rcases List.mem_cons.mp hc₁ with hh | hh
        · subst hh; rw [hst] at hl₀; cases hl₀
        · exact hb c₁ hh l₀ hl₀
      · intro p hp
        rcases he p hp with hh | ⟨k, c₁, hget, hoff, hu⟩
        · exact Or.inl hh
        · exact Or.inr ⟨k + 1, c₁, by simpa using hget, by push_cast at hoff ⊢; omega, hu⟩
    · rw [hst] at h
      dsimp only at h
      by_cases hmem : l ∈ seen
      · rw [if_pos hmem] at h
        obtain ⟨ha, hb, hc, hd, he, hf, hg, hh₀⟩ := ih (i + 1) q seen q₁ seen₁ h hsync hnd hnds
        refine ⟨?_, ?_, hc, hd, ?_, hf, hg, hh₀⟩
        · intro c₁ hc₁
          rcases List.mem_cons.mp hc₁ with hh | hh
          · subst hh
            intro hfals
            have := (checkClauseStatus_unsat_iff value c₁).mpr hfals
            rw [hst] at this
            cases this
          · exact ha c₁ hh
        · intro c₁ hc₁ l₀ hl₀
          rcases List.mem_cons.mp hc₁ with hh | hh
          · subst hh
            rw [hst] at hl₀
            injection hl₀ with hl₀
            subst hl₀
            exact hc _ hmem
          · exact hb c₁ hh l₀ hl₀
        · intro p hp
          rcases he p hp with hh | ⟨k, c₁, hget, hoff, hu⟩
          · exact Or.inl hh
          · exact Or.inr ⟨k + 1, c₁, by simpa using hget, by push_cast at hoff ⊢; omega, hu⟩
      · rw [if_neg hmem] at h
        have hsync₂ : ∀ l₀ : Int, l₀ ∈ setInsert l seen ↔ ∃ a, (l₀, a) ∈ (l, i) :: q := by
          intro l₀
          constructor
          · intro hl₀
            have hcases : l₀ ∈ seen ∨ l₀ = l := by simpa [setInsert, hmem] using hl₀
            rcases hcases with hh | hh
            · obtain ⟨a, ha⟩ := (hsync l₀).mp hh
              exact ⟨a, List.mem_cons_of_mem _ ha⟩
            · subst hh
              exact ⟨i, List.mem_cons_self _ _⟩
          · rintro ⟨a, ha⟩
            rcases List.mem_cons.mp ha with hh | hh
            · injection hh with h₁ h₂
              subst h₁
              simp [setInsert, hmem]
            · have := (hsync l₀).mpr ⟨a, hh⟩
              simp [setInsert, hmem, this]
        have hnd₂ : (((l, i) :: q).map Prod.fst).Nodup := by
          rw [List.map_cons]
          refine List.nodup_cons.mpr ⟨?_, hnd⟩
          intro hcon
          obtain ⟨p, hp, hpeq⟩ := List.mem_map.mp hcon
          refine hmem ((hsync l).mpr ⟨p.2, ?_⟩)
          have hpl : p = (l, p.2) := by
            obtain ⟨p1, p2⟩ := p
            simp only [Prod.fst] at hpeq
            simp [hpeq]
          rw [← hpl]
          exact hp
        have hnds₂ : (setInsert l seen).Nodup := by
          simp only [setInsert, if_neg hmem]
          exact List.Nodup.append hnds (List.nodup_singleton l)
            (by simp [List.disjoint_singleton, hmem])
        obtain ⟨ha, hb, hc, hd, he, hf, hg, hh₀⟩ :=
          ih (i + 1) ((l, i) :: q) (setInsert l seen) q₁ seen₁ h hsync₂ hnd₂ hnds₂
        refine ⟨?_, ?_, ?_, ?_, ?_, hf, hg, hh₀⟩
        · intro c₁ hc₁
          rcases List.mem_cons.mp hc₁ with hh | hh
          · subst hh
            intro hfals
            have := (checkClauseStatus_unsat_iff value c₁).mpr hfals
            rw [hst] at this
            cases this
          · exact ha c₁ hh
        · intro c₁ hc₁ l₀ hl₀
          rcases List.mem_cons.mp hc₁ with hh | hh
          · subst hh
            rw [hst] at hl₀
            injection hl₀ with hl₀
            subst hl₀
            exact hc _ (by simp [setInsert, hmem])
          · exact hb c₁ hh l₀ hl₀
        · intro l₀ hl₀
          exact hc l₀ (by simp [setInsert, hmem, hl₀])
        · obtain ⟨newE, hnewE⟩ := hd
          exact ⟨newE ++ [(l, i)], by simpa using hnewE⟩
        · intro p hp
          rcases he p hp with hh | ⟨k, c₁, hget, hoff, hu⟩
          · rcases List.mem_cons.mp hh with hh₂ | hh₂
            · subst hh₂
              exact Or.inr ⟨0, c, rfl, by omega, hst⟩
            · exact Or.inl hh₂
          · exact Or.inr ⟨k + 1, c₁, by simpa using hget, by push_cast at hoff ⊢; omega, hu⟩

/-- The initial scan collects every unit literal of the slice into the
suppression set, only grows the queue by valid entries, and keeps the
queue and set in sync. (UNSAT feedback is ignored here, as in the
source.) -/
theorem findUnitScan_spec (value : Nat → Int) :
    ∀ (rest : List (List Int)) (i : Int) (q : List (Int × Int)) (seen : List Int),
      (∀ l : Int, l ∈ seen ↔ ∃ a, (l, a) ∈ q) →
      (q.map Prod.fst).Nodup → seen.Nodup →
      (∀ c ∈ rest, ∀ l : Int, checkClauseStatus value c = .unit l →
        l ∈ (findUnitScan value rest i q seen).2) ∧
      (∀ l : Int, l ∈ seen → l ∈ (findUnitScan value rest i q seen).2) ∧
      (∃ newEntries, (findUnitScan value rest i q seen).1 = newEntries ++ q) ∧
      (∀ p ∈ (findUnitScan value rest i q seen).1, p ∈ q ∨
        ∃ (k : Nat) (c : List Int), rest.get? k = some c ∧ p.2 = i + (k : Int) ∧
          checkClauseStatus value c = .unit p.1) ∧
      (∀ l : Int, l ∈ (findUnitScan value rest i q seen).2 ↔
        ∃ a, (l, a) ∈ (findUnitScan value rest i q seen).1) ∧
      ((findUnitScan value rest i q seen).1.map Prod.fst).Nodup ∧
      (findUnitScan value rest i q seen).2.Nodup := by
  intro rest
  induction rest with
  | nil =>
    intro i q seen hsync hnd hnds
    exact ⟨by simp, fun l hl => hl, ⟨[], rfl⟩, fun p hp => Or.inl hp, hsync, hnd, hnds⟩
  | cons c rest ih =>
    intro i q seen hsync hnd hnds
    rcases hst : checkClauseStatus value c with _ | _ | _ | l
    all_goals
      try {
        have hstep : findUnitScan value (c :: rest) i q seen
            = findUnitScan value rest (i + 1) q seen := by
          rw [findUnitScan, hst]
        rw [hstep]
        obtain ⟨ha, hb, hc, hd, he, hf, hg₀⟩ := ih (i + 1) q seen hsync hnd hnds
        refine ⟨?_, hb, hc, ?_, he, hf, hg₀⟩
        · intro c₁ hc₁ l₀ hl₀
          rcases List.mem_cons.mp hc₁ with hh | hh
          · subst hh; rw [hst] at hl₀; cases hl₀
          · exact ha c₁ hh l₀ hl₀
        · intro p hp
          rcases hd p hp with hh | ⟨k, c₁, hget, hoff, hu⟩
          · exact Or.inl hh
          · exact Or.inr ⟨k + 1, c₁, by simpa using hget, by push_cast at hoff ⊢; omega, hu⟩ }
    by_cases hmem : l ∈ seen
    · have hstep : findUnitScan value (c :: rest) i q seen
          = findUnitScan value rest (i + 1) q seen := by
        rw [findUnitScan, hst]
        dsimp only
        rw [if_pos hmem]
      rw [hstep]
      obtain ⟨ha, hb, hc, hd, he, hf, hg₀⟩ := ih (i + 1) q seen hsync hnd hnds
      refine ⟨?_, hb, hc, ?_, he, hf, hg₀⟩
      · intro c₁ hc₁ l₀ hl₀
        rcases List.mem_cons.mp hc₁ with hh | hh
        · subst hh
          rw [hst] at hl₀
          injection hl₀ with hl₀
          subst hl₀
          exact hb _ hmem
        · exact ha c₁ hh l₀ hl₀
      · intro p hp
        rcases hd p hp with hh | ⟨k, c₁, hget, hoff, hu⟩
        · exact Or.inl hh
        · exact Or.inr ⟨k + 1, c₁, by simpa using hget, by push_cast at hoff ⊢; omega, hu⟩
    · have hstep : findUnitScan value (c :: rest) i q seen
          = findUnitScan value rest (i + 1) ((l, i) :: q) (setInsert l seen) := by
        rw [findUnitScan, hst]
        dsimp only
        rw [if_neg hmem]
      have hsync₂ : ∀ l₀ : Int, l₀ ∈ setInsert l seen ↔ ∃ a, (l₀, a) ∈ (l, i) :: q := by
        intro l₀
        constructor
        · intro hl₀
          have hcases : l₀ ∈ seen ∨ l₀ = l := by simpa [setInsert, hmem] using hl₀
          rcases hcases with hh | hh
          · obtain ⟨a, ha⟩ := (hsync l₀).mp hh
            exact ⟨a, List.mem_cons_of_mem _ ha⟩
          · subst hh
            exact ⟨i, List.mem_cons_self _ _⟩
        · rintro ⟨a, ha⟩
          rcases List.mem_cons.mp ha with hh | hh
          · injection hh with h₁ h₂
            subst h₁
            simp [setInsert, hmem]
          · have := (hsync l₀).mpr ⟨a, hh⟩
            simp [setInsert, hmem, this]
      have hnd₂ : (((l, i) :: q).map Prod.fst).Nodup := by
        rw [List.map_cons]
        refine List.nodup_cons.mpr ⟨?_, hnd⟩
        intro hcon
        obtain ⟨p, hp, hpeq⟩ := List.mem_map.mp hcon
        refine hmem ((hsync l).mpr ⟨p.2, ?_⟩)
        have hpl : p = (l, p.2) := by
          obtain ⟨p1, p2⟩ := p
          simp only [Prod.fst] at hpeq
          simp [hpeq]
        rw [← hpl]
        exact hp
      have hnds₂ : (setInsert l seen).Nodup := by
        simp only [setInsert, if_neg hmem]
        exact List.Nodup.append hnds (List.nodup_singleton l)
          (by simp [List.disjoint_singleton, hmem])
      rw [hstep]
      obtain ⟨ha, hb, hc, hd, he, hf, hg₀⟩ :=
        ih (i + 1) ((l, i) :: q) (setInsert l seen) hsync₂ hnd₂ hnds₂
      refine ⟨?_, ?_, ?_, ?_, he, hf, hg₀⟩
      · intro c₁ hc₁ l₀ hl₀
        rcases List.mem_cons.mp hc₁ with hh | hh
        · subst hh
          rw [hst] at hl₀
          injection hl₀ with hl₀
          subst hl₀
          exact hb _ (by simp [setInsert, hmem])
        · exact ha c₁ hh l₀ hl₀
      · intro l₀ hl₀
        exact hb l₀ (by simp [setInsert, hmem, hl₀])
      · obtain ⟨newE, hnewE⟩ := hc
        exact ⟨newE ++ [(l, i)], by simpa using hnewE⟩
      · intro p hp
        rcases hd p hp with hh | ⟨k, c₁, hget, hoff, hu⟩
        · rcases List.mem_cons.mp hh with hh₂ | hh₂
          · subst hh₂
            exact Or.inr ⟨0, c, rfl, by omega, hst⟩
          · exact Or.inl hh₂
        · exact Or.inr ⟨k + 1, c₁, by simpa using hget, by push_cast at hoff ⊢; omega, hu⟩

theorem backtrackFrame_refl (s : Solver) : backtrackFrame s s := by
  simp [backtrackFrame]

theorem backtrackFrame_trans {s t u : Solver}
    (h₁ : backtrackFrame s t) (h₂ : backtrackFrame t u) : backtrackFrame s u := by
  obtain ⟨a1, a2, a3, a4, a5, a6, a7, a8, a9, a10, a11, a12, a13, a14, a15, a16⟩ := h₁
  obtain ⟨b1, b2, b3, b4, b5, b6, b7, b8, b9, b10, b11, b12, b13, b14, b15, b16⟩ := h₂
  exact ⟨b1.trans a1, b2.trans a2, b3.trans a3, b4.trans a4, b5.trans a5, b6.trans a6,
    b7.trans a7, b8.trans a8, b9.trans a9, b10.trans a10, b11.trans a11, b12.trans a12,
    b13.trans a13, b14.trans a14, b15.trans a15, b16.trans a16⟩

theorem mem_setInsert {α : Type} [DecidableEq α] (y x : α) (s : List α) :
    y ∈ setInsert x s ↔ y ∈ s ∨ y = x := by
  by_cases h : x ∈ s
  · simp only [setInsert, if_pos h]
    constructor
    · exact Or.inl
    · rintro (hy | hy)
      · exact hy
      · exact hy ▸ h
  · simp [setInsert, if_neg h]

theorem setInsert_nodup {α : Type} [DecidableEq α] (x : α) (s : List α)
    (h : s.Nodup) : (setInsert x s).Nodup := by
  by_cases hm : x ∈ s
  · simpa [setInsert, if_pos hm] using h
  · simp only [setInsert, if_neg hm]
    exact List.Nodup.append h (List.nodup_singleton x)
      (by simp [List.disjoint_singleton, hm])

theorem find?_cons_true {α : Type} (p : α → Bool) (a : α) (l : List α)
    (h : p a = true) : List.find? p (a :: l) = some a := by
  simp [List.find?, h]

theorem find?_cons_false {α : Type} (p : α → Bool) (a : α) (l : List α)
    (h : p a = false) : List.find? p (a :: l) = List.find? p l := by
  simp [List.find?, h]

theorem find?_map_dictSet {β : Type} (k k' : Int) (v : β) (hne : k' ≠ k) :
    ∀ d : List (Int × β),
      List.find? (fun p => p.1 = k') (d.map (fun p => if p.1 = k then (k, v) else p))
        = List.find? (fun p => p.1 = k') d := by
  intro d
  induction d with
  | nil => rfl
  | cons p d ih =>
    rw [List.map_cons]
    by_cases hpk : p.1 = k
    · have h₁ : (fun p : Int × β => decide (p.1 = k')) (if p.1 = k then (k, v) else p)
          = false := by
        simp [if_pos hpk]
        exact fun hc => hne hc.symm
      have h₂ : (fun p : Int × β => decide (p.1 = k')) p = false := by
        simp [hpk]
        exact fun hc => hne hc.symm
      rw [find?_cons_false (fun p : Int × β => decide (p.1 = k')) _ _ h₁,
        find?_cons_false (fun p : Int × β => decide (p.1 = k')) _ _ h₂]
      exact ih
    · rw [if_neg hpk]
      by_cases hpk' : p.1 = k'
      · rw [find?_cons_true (fun p : Int × β => decide (p.1 = k')) _ _ (by simpa using hpk'),
          find?_cons_true (fun p : Int × β => decide (p.1 = k')) _ _ (by simpa using hpk')]
      · rw [find?_cons_false (fun p : Int × β => decide (p.1 = k')) _ _ (by simpa using hpk'),
          find?_cons_false (fun p : Int × β => decide (p.1 = k')) _ _ (by simpa using hpk')]
        exact ih

theorem dictFind?_dictSet_same {β : Type} (d : List (Int × β)) (k : Int) (v : β) :
    dictFind? (dictSet d k v) k = some v := by
  by_cases h : d.any (fun p => p.1 = k)
  · rw [dictSet, if_pos h]
    obtain ⟨p₀, hp₀, hpk⟩ := List.any_eq_true.mp h
    clear h
    rw [dictFind?]
    induction d with
    | nil => cases hp₀
    | cons p d ih =>
      rw [List.map_cons]
      by_cases hpk₁ : p.1 = k
      · rw [if_pos hpk₁, find?_cons_true (fun p : Int × β => decide (p.1 = k)) _ _ (by simp)]
        rfl
      · rw [if_neg hpk₁, find?_cons_false (fun p : Int × β => decide (p.1 = k)) _ _ (by simpa using hpk₁)]
        rcases List.mem_cons.mp hp₀ with hh | hh
        · subst hh
          exact absurd (of_decide_eq_true hpk) hpk₁
        · exact ih hh
  · rw [dictSet, if_neg h]
    have hnone : ∀ p ∈ d, ¬ (p.1 = k) := by
      intro p hp hpk
      exact h (List.any_eq_true.mpr ⟨p, hp, decide_eq_true hpk⟩)
    clear h
    rw [dictFind?]
    induction d with
    | nil => simp [List.find?]
    | cons p d ih =>
      rw [List.cons_append,
        find?_cons_false (fun p : Int × β => decide (p.1 = k)) _ _
          (by simpa using hnone p (List.mem_cons_self p d))]
      exact ih (fun p₁ hp₁ => hnone p₁ (List.mem_cons_of_mem p hp₁))

theorem dictFind?_dictSet_ne {β : Type} (d : List (Int × β)) (k k' : Int) (v : β)
    (hne : k' ≠ k) : dictFind? (dictSet d k v) k' = dictFind? d k' := by
  by_cases h : d.any (fun p => p.1 = k)
  · rw [dictSet, if_pos h, dictFind?, dictFind?, find?_map_dictSet k k' v hne d]
  · rw [dictSet, if_neg h]
    rw [dictFind?, dictFind?, List.find?_append]
    have hsingle : List.find? (fun p : Int × β => p.1 = k') [(k, v)] = none := by
      rw [find?_cons_false (fun p : Int × β => decide (p.1 = k')) _ _
        (by simp; exact fun hc => hne hc.symm)]
      rfl
    rw [hsingle, Option.or_none]

theorem histExtend_spec (s : Solver) (k : Int) (ls : List Int) (s₂ : Solver)
    (h : histExtend s k ls = some s₂) :
    ∃ old, histFind? s k = some old ∧ s₂ = histSet s k (old ++ ls) := by
  unfold histExtend at h
  rcases hfind : histFind? s k with _ | old
  · rw [hfind] at h; cases h
  · rw [hfind] at h
    injection h with h
    exact ⟨old, rfl, h.symm⟩

theorem histFind?_histSet_same (s : Solver) (k : Int) (v : List Int) :
    histFind? (histSet s k v) k = some v :=
  dictFind?_dictSet_same s.assignmentHistory k v

theorem histFind?_histSet_ne (s : Solver) (k k' : Int) (v : List Int) (hne : k' ≠ k) :
    histFind? (histSet s k v) k' = histFind? s k' :=
  dictFind?_dictSet_ne s.assignmentHistory k k' v hne

/-- Wellformedness of the clause database: every clause has nonzero
literals over pairwise distinct variables (the data model of the spec;
also what the DIMACS format produces). -/
def formulaWF (s : Solver) : Prop :=
  ∀ c ∈ s.formula, (∀ l ∈ c, l ≠ 0) ∧ (c.map Int.natAbs).Nodup

instance (s : Solver) : Decidable (formulaWF s) := by
  unfold formulaWF; infer_instance

/-- Three-valued assignment maps. -/
def valueWF (s : Solver) : Prop :=
  ∀ n, s.value n = -1 ∨ s.value n = 0 ∨ s.value n = 1

/-- Validity of a pending propagation queue entry: the antecedent id
denotes a clause containing the literal, the literal's variable is
unassigned, and every other literal of that clause is false. -/
def queueEntryOK (s : Solver) (p : Int × Int) : Prop :=
  ∃ c, getClause? s.formula p.2 = some c ∧ p.1 ∈ c ∧ s.value p.1.natAbs = 0 ∧
    ∀ m ∈ c, m ≠ p.1 → litFalse s.value m

/-- How a state evolves across unit propagation at level `lvl`:
the frame, preservation of existing assignments, and the exact
bookkeeping for freshly assigned variables (level, antecedent clause,
assigned set, history extension). -/
structure PropEvolve (lvl : Int) (s s₁ : Solver) : Prop where
  frame : backtrackFrame s s₁
  nodupAssigned : s₁.assignedLits.Nodup
  valueWF₁ : valueWF s₁
  extends₁ : ∀ v, s.value v ≠ 0 → s₁.value v = s.value v ∧
    s₁.decisionLevel v = s.decisionLevel v ∧ s₁.antecedent v = s.antecedent v
  untouched : ∀ v, s₁.value v = s.value v →
    s₁.decisionLevel v = s.decisionLevel v ∧ s₁.antecedent v = s.antecedent v
  touched : ∀ v, s₁.value v ≠ s.value v →
    s₁.value v ≠ 0 ∧ s.value v = 0 ∧ s₁.decisionLevel v = lvl ∧
    ∃ c, getClause? s.formula (s₁.antecedent v) = some c ∧ assignedLit s₁ v ∈ c ∧
      ∀ m ∈ c, m ≠ assignedLit s₁ v → litFalse s₁.value m
  assignedIff : ∀ v, v ∈ s₁.assignedLits ↔
    (v ∈ s.assignedLits ∨ s₁.value v ≠ s.value v)
  histNe : ∀ k, k ≠ lvl →
    dictFind? s₁.assignmentHistory k = dictFind? s.assignmentHistory k
  histExt : ∀ h₀, histFind? s lvl = some h₀ →
    ∃ ext, histFind? s₁ lvl = some (h₀ ++ ext) ∧
      (∀ l ∈ ext, l ≠ 0 ∧ s₁.value l.natAbs = (if 0 < l then 1 else -1) ∧
        s₁.decisionLevel l.natAbs = lvl ∧ s₁.antecedent l.natAbs ≠ -1) ∧
      (∀ v, s₁.value v ≠ s.value v → assignedLit s₁ v ∈ ext)

theorem PropEvolve.refl (lvl : Int) (s : Solver) (hnd : s.assignedLits.Nodup)
    (hv : valueWF s) : PropEvolve lvl s s where
  frame := backtrackFrame_refl s
  nodupAssigned := hnd
  valueWF₁ := hv
  extends₁ := fun v _ => ⟨rfl, rfl, rfl⟩
  untouched := fun v _ => ⟨rfl, rfl⟩
  touched := fun v hv₁ => absurd rfl hv₁
  assignedIff := fun v => ⟨Or.inl, fun h => h.elim id (fun hc => absurd rfl hc)⟩
  histNe := fun k _ => rfl
  histExt := fun h₀ hh => ⟨[], by simpa using hh, by simp, fun v hc => absurd rfl hc⟩

theorem PropEvolve.trans {lvl : Int} {s t u : Solver}
    (h₁ : PropEvolve lvl s t) (h₂ : PropEvolve lvl t u) : PropEvolve lvl s u where
  frame := backtrackFrame_trans h₁.frame h₂.frame
  nodupAssigned := h₂.nodupAssigned
  valueWF₁ := h₂.valueWF₁
  extends₁ := by
    intro v hv
    obtain ⟨e1, e2, e3⟩ := h₁.extends₁ v hv
    obtain ⟨f1, f2, f3⟩ := h₂.extends₁ v (e1 ▸ hv)
    exact ⟨f1.trans e1, f2.trans e2, f3.trans e3⟩
  untouched := by
    intro v hv
    by_cases hm : t.value v = s.value v
    · obtain ⟨e2, e3⟩ := h₁.untouched v hm
      obtain ⟨f2, f3⟩ := h₂.untouched v (by rw [hm, hv])
      exact ⟨f2.trans e2, f3.trans e3⟩
    · obtain ⟨ht0, _, _, _⟩ := h₁.touched v hm
      obtain ⟨g1, _, _⟩ := h₂.extends₁ v ht0
      exact absurd (g1.symm.trans hv) hm
  touched := by
    intro v hv
    by_cases hm : t.value v = s.value v
    · have hvu : u.value v ≠ t.value v := by rw [hm]; exact hv
      obtain ⟨t1, t2, t3, c, hc, hmem, hfalse⟩ := h₂.touched v hvu
      refine ⟨t1, hm ▸ t2, t3, c, ?_, hmem, hfalse⟩
      rw [← h₁.frame.1]
      exact hc
    · obtain ⟨ht0, hs0, htl, c, hc, hmem, hfalse⟩ := h₁.touched v hm
      obtain ⟨g1, g2, g3⟩ := h₂.extends₁ v ht0
      have hval : u.value v = t.value v := g1
      have haL : assignedLit u v = assignedLit t v := by
        unfold assignedLit
        rw [hval]
      refine ⟨by rw [hval]; exact ht0, hs0, by rw [g2]; exact htl, c, ?_, ?_, ?_⟩
      · rw [g3]; exact hc
      · rw [haL]; exact hmem
      · intro m hmc hmne
        have hmf : litFalse t.value m := hfalse m hmc (by rw [← haL]; exact hmne)
        have hm0 : t.value m.natAbs ≠ 0 := by
          rcases hmf with ⟨_, hh⟩ | ⟨_, hh⟩ <;> omega
        obtain ⟨k1, _, _⟩ := h₂.extends₁ m.natAbs hm0
        rcases hmf with ⟨hh1, hh2⟩ | ⟨hh1, hh2⟩
        · exact Or.inl ⟨hh1, by rw [k1]; exact hh2⟩
        · exact Or.inr ⟨hh1, by rw [k1]; exact hh2⟩
  assignedIff := by
    intro v
    rw [h₂.assignedIff v, h₁.assignedIff v]
    constructor
    · rintro ((hs | ht) | hu)
      · exact Or.inl hs
      · obtain ⟨ht0, _, _, _⟩ := h₁.touched v ht
        obtain ⟨g1, _, _⟩ := h₂.extends₁ v ht0
        exact Or.inr (by rw [g1]; exact ht)
      · by_cases hm : t.value v = s.value v
        · exact Or.inr (by rw [← hm]; exact hu)
        · obtain ⟨ht0, _, _, _⟩ := h₁.touched v hm
          obtain ⟨g1, _, _⟩ := h₂.extends₁ v ht0
          exact Or.inr (by rw [g1]; exact hm)
    · rintro (hs | hd)
      · exact Or.inl (Or.inl hs)
      · by_cases hm : t.value v = s.value v
        · exact Or.inr (by rw [hm]; exact hd)
        · exact Or.inl (Or.inr hm)
  histNe := fun k hk => (h₂.histNe k hk).trans (h₁.histNe k hk)
  histExt := by
    intro h₀ hh
    obtain ⟨e₁, he₁, hfacts₁, hcov₁⟩ := h₁.histExt h₀ hh
    obtain ⟨e₂, he₂, hfacts₂, hcov₂⟩ := h₂.histExt (h₀ ++ e₁) he₁
    refine ⟨e₁ ++ e₂, by rw [← List.append_assoc]; exact he₂, ?_, ?_⟩
    · intro l hl
      rcases List.mem_append.mp hl with hl₁ | hl₂
      · obtain ⟨n0, nv, nl, na⟩ := hfacts₁ l hl₁
        have hv0 : t.value l.natAbs ≠ 0 := by
          rw [nv]
          split <;> omega
        obtain ⟨g1, g2, g3⟩ := h₂.extends₁ l.natAbs hv0
        exact ⟨n0, by rw [g1]; exact nv, by rw [g2]; exact nl, by rw [g3]; exact na⟩
      · exact hfacts₂ l hl₂
    · intro v hv
      by_cases hm : t.value v = s.value v
      · have := hcov₂ v (by rw [hm]; exact hv)
        exact List.mem_append.mpr (Or.inr this)
      · obtain ⟨ht0, _, _, _⟩ := h₁.touched v hm
        obtain ⟨g1, _, _⟩ := h₂.extends₁ v ht0
        have haL : assignedLit u v = assignedLit t v := by
          unfold assignedLit
          rw [g1]
        rw [haL]
        exact List.mem_append.mpr (Or.inl (hcov₁ v hm))

theorem assignedLit_of_value (s₁ : Solver) (u : Int) (_hune : u ≠ 0)
    (hval : s₁.value u.natAbs = if 0 < u then 1 else -1) :
    assignedLit s₁ u.natAbs = u := by
  unfold assignedLit
  rw [hval]
  by_cases h : 0 < u
  · rw [if_pos h, if_pos rfl]
    omega
  · rw [if_neg h, if_neg (by omega)]
    omega

theorem litFalse_var_ne (s : Solver) (m : Int) (v : Nat) (hm : litFalse s.value m)
    (hv : s.value v = 0) : m.natAbs ≠ v := by
  rcases hm with ⟨_, h⟩ | ⟨_, h⟩ <;> (intro hc; rw [hc, hv] at h; omega)

/-- One assignment step of the propagation loop (the pop of a valid
queue entry followed by the history append) is a `PropEvolve`. -/
theorem propEvolve_assign (s : Solver) (lvl u a : Int) (c_a old : List Int)
    (hwfv : valueWF s) (hnd : s.assignedLits.Nodup)
    (hga : getClause? s.formula a = some c_a)
    (huc : u ∈ c_a) (hu0 : s.value u.natAbs = 0)
    (hothers : ∀ m ∈ c_a, m ≠ u → litFalse s.value m)
    (hune : u ≠ 0)
    (hold : histFind? s lvl = some old) :
    PropEvolve lvl s (histSet { s with
      value := upd s.value u.natAbs (if 0 < u then 1 else -1)
      antecedent := upd s.antecedent u.natAbs a
      decisionLevel := upd s.decisionLevel u.natAbs lvl
      assignedLits := setInsert u.natAbs s.assignedLits } lvl (old ++ [u])) := by
  set s' : Solver := { s with
      value := upd s.value u.natAbs (if 0 < u then 1 else -1)
      antecedent := upd s.antecedent u.natAbs a
      decisionLevel := upd s.decisionLevel u.natAbs lvl
      assignedLits := setInsert u.natAbs s.assignedLits } with hs'
  have ha0 : 0 ≤ a := by
    rw [getClause?] at hga
    by_cases h : 0 ≤ a
    · exact h
    · rw [if_neg h] at hga; cases hga
  set s₂ : Solver := histSet s' lvl (old ++ [u]) with hs₂
  have hV : s₂.value = upd s.value u.natAbs (if 0 < u then 1 else -1) := rfl
  have hL : s₂.decisionLevel = upd s.decisionLevel u.natAbs lvl := rfl
  have hA : s₂.antecedent = upd s.antecedent u.natAbs a := rfl
  have hAS : s₂.assignedLits = setInsert u.natAbs s.assignedLits := rfl
  have hFor : s₂.formula = s.formula := rfl
  have hval : s₂.value u.natAbs = if 0 < u then 1 else -1 := by rw [hV, upd_same]
  have haL : assignedLit s₂ u.natAbs = u := assignedLit_of_value s₂ u hune hval
  have hvalch : s₂.value u.natAbs ≠ s.value u.natAbs := by
    rw [hu0, hval]
    split <;> omega
  have hvalo : ∀ v, v ≠ u.natAbs → s₂.value v = s.value v := by
    intro v hv
    rw [hV]
    exact upd_other _ _ hv
  refine { frame := ?_, nodupAssigned := ?_, valueWF₁ := ?_, extends₁ := ?_,
           untouched := ?_, touched := ?_, assignedIff := ?_, histNe := ?_,
           histExt := ?_ }
  · simp [backtrackFrame, histSet, hs₂, hs']
  · rw [hAS]
    exact setInsert_nodup _ _ hnd
  · intro n
    rw [hV]
    by_cases hn : n = u.natAbs
    · rw [hn, upd_same]
      split
      · right; right; rfl
      · left; rfl
    · rw [upd_other _ _ hn]
      exact hwfv n
  · intro v hv
    have hvne : v ≠ u.natAbs := fun hc => hv (hc ▸ hu0)
    rw [hV, hL, hA]
    exact ⟨upd_other _ _ hvne, upd_other _ _ hvne, upd_other _ _ hvne⟩
  · intro v hv
    have hvne : v ≠ u.natAbs := by
      intro hc
      subst hc
      exact hvalch hv
    rw [hL, hA]
    exact ⟨upd_other _ _ hvne, upd_other _ _ hvne⟩
  · intro v hv
    have hveq : v = u.natAbs := by
      by_contra hc
      exact hv (hvalo v hc)
    subst hveq
    refine ⟨by rw [hval]; split <;> omega, hu0, by rw [hL]; exact upd_same _ _ _,
      c_a, ?_, ?_, ?_⟩
    · show getClause? s.formula (upd s.antecedent u.natAbs a u.natAbs) = some c_a
      rw [upd_same]
      exact hga
    · rw [haL]; exact huc
    · intro m hm hmne
      rw [haL] at hmne
      have hmf := hothers m hm hmne
      have hmv : m.natAbs ≠ u.natAbs := litFalse_var_ne s m u.natAbs hmf hu0
      have hmval : s₂.value m.natAbs = s.value m.natAbs := by
        rw [hV]; exact upd_other _ _ hmv
      rcases hmf with ⟨h1, h2⟩ | ⟨h1, h2⟩
      · exact Or.inl ⟨h1, by rw [hmval]; exact h2⟩
      · exact Or.inr ⟨h1, by rw [hmval]; exact h2⟩
  · intro v
    rw [hAS, mem_setInsert]
    constructor
    · rintro (h | h)
      · exact Or.inl h
      · exact Or.inr (h ▸ hvalch)
    · rintro (h | h)
      · exact Or.inl h
      · right
        by_contra hc
        exact h (hvalo v hc)
  · intro k hk
    exact dictFind?_dictSet_ne _ _ _ _ hk
  · intro h₀ hh
    rw [hold] at hh
    injection hh with hh₂
    rw [← hh₂]
    refine ⟨[u], histFind?_histSet_same s' lvl (old ++ [u]), ?_, ?_⟩
    · intro l hl
      have hl : l = u := by simpa using hl
      subst hl
      refine ⟨hune, hval, by rw [hL]; exact upd_same _ _ _, ?_⟩
      rw [hA, upd_same]
      omega
    · intro v hv
      have hveq : v = u.natAbs := by
        by_contra hc
        exact hv (hvalo v hc)
      subst hveq
      rw [haL]
      exact List.mem_singleton_self u

theorem getClause?_mem (f : List (List Int)) (i : Int) (c : List Int)
    (h : getClause? f i = some c) : c ∈ f := by
  rw [getClause?] at h
  split at h
  · exact List.get?_mem h
  · cases h

/-- Changing only the recorded conflict clause preserves the evolution
relation. -/
theorem PropEvolve.withKappa {lvl : Int} {s t : Solver}
    (h : PropEvolve lvl s t) (x : Option Int) :
    PropEvolve lvl s { t with kappaConflictClause := x } :=
  { frame := h.frame, nodupAssigned := h.nodupAssigned, valueWF₁ := h.valueWF₁,
    extends₁ := h.extends₁, untouched := h.untouched, touched := h.touched,
    assignedIff := h.assignedIff, histNe := h.histNe, histExt := h.histExt }

/-- Master specification of the `while unit_clauses:` loop: on any
return it is a `PropEvolve`; a nonnegative return value is the id of a
clause falsified in the returned state; the sentinel -111 is returned
only when the final state has no falsified and no unit clause. -/
theorem unitPropLoop_spec (lvl : Int) :
    ∀ (fuel : Nat) (s : Solver) (q : List (Int × Int)) (seen : List Int)
      (r : Int) (s₁ : Solver),
      unitPropLoop lvl fuel s q seen = some (r, s₁) →
      formulaWF s → valueWF s →
      (∀ l : Int, l ∈ seen ↔ ∃ a, (l, a) ∈ q) →
      (q.map Prod.fst).Nodup → seen.Nodup →
      (∀ p ∈ q, queueEntryOK s p) →
      noFalsified s →
      (∀ c ∈ s.formula, ∀ l : Int, checkClauseStatus s.value c = .unit l → l ∈ seen) →
      s.assignedLits.Nodup →
      PropEvolve lvl s s₁ ∧
      (r = -111 ∨ (0 ≤ r ∧ ∃ c, getClause? s.formula r = some c ∧
        clauseFalsified s₁.value c)) ∧
      (r = -111 → noFalsified s₁ ∧ noUnit s₁) := by
  intro fuel
  induction fuel with
  | zero =>
    intro s q seen r s₁ h
    cases h
  | succ n ih =>
    intro s q seen r s₁ h hwf hv hsync hndq hnds hQ hnf hall hnda
    rcases q with _ | ⟨⟨u, a⟩, q'⟩
    · have h' : (some ((-111 : Int), s) : Option (Int × Solver)) = some (r, s₁) := by
        rw [← h]
        rfl
      injection h' with h''
      rw [Prod.mk.injEq] at h''
      obtain ⟨hr, hs⟩ := h''
      subst hs
      refine ⟨PropEvolve.refl lvl s hnda hv, Or.inl hr.symm, fun _ => ⟨hnf, ?_⟩⟩
      intro c hc
      rcases hst : checkClauseStatus s.value c with _ | _ | _ | l
      · rfl
      · rfl
      · rfl
      · obtain ⟨a₀, ha₀⟩ := (hsync l).mp (hall c hc l hst)
        cases ha₀
    · rw [unitPropLoop] at h
      rcases hasg : assignValue s u a lvl with _ | s'
      · rw [hasg] at h
        exact absurd h (by simp)
      · rw [hasg] at h
        simp only [Option.bind_eq_bind, Option.some_bind] at h
        have hu0ne : u ≠ 0 := by
          intro hc
          rw [assignValue, if_pos hc] at hasg
          cases hasg
        rw [assignValue, if_neg hu0ne] at hasg
        injection hasg with hs'
        obtain ⟨c_a, hga, huc, hu0, hothers⟩ := hQ (u, a) (List.mem_cons_self _ _)
        rcases hext : histExtend s' lvl [u] with _ | s''
        · rw [hext] at h
          exact absurd h (by simp)
        · rw [hext] at h
          simp only [Option.bind_eq_bind, Option.some_bind] at h
          obtain ⟨old, hfind, hs''⟩ := histExtend_spec s' lvl [u] s'' hext
          subst hs'
          subst hs''
          have hEv : PropEvolve lvl s (histSet { s with
              value := upd s.value u.natAbs (if 0 < u then 1 else -1)
              antecedent := upd s.antecedent u.natAbs a
              decisionLevel := upd s.decisionLevel u.natAbs lvl
              assignedLits := setInsert u.natAbs s.assignedLits } lvl (old ++ [u])) :=
            propEvolve_assign s lvl u a c_a old hv hnda hga huc hu0 hothers hu0ne hfind
          set s₂ : Solver := histSet { s with
              value := upd s.value u.natAbs (if 0 < u then 1 else -1)
              antecedent := upd s.antecedent u.natAbs a
              decisionLevel := upd s.decisionLevel u.natAbs lvl
              assignedLits := setInsert u.natAbs s.assignedLits } lvl (old ++ [u])
            with hs₂def
          have hforin : s₂.formula = s.formula := rfl
          have hval2 : s₂.value = upd s.value u.natAbs (if 0 < u then 1 else -1) := rfl
          have hvalu : s₂.value u.natAbs = if 0 < u then 1 else -1 := by
            rw [hval2, upd_same]
          have hvalo : ∀ v, v ≠ u.natAbs → s₂.value v = s.value v := by
            intro v hvne
            rw [hval2]
            exact upd_other _ _ hvne
          have hfalse_pres : ∀ m : Int, litFalse s.value m → litFalse s₂.value m := by
            intro m hm
            have hmv : m.natAbs ≠ u.natAbs := litFalse_var_ne s m u.natAbs hm hu0
            rcases hm with ⟨h1, h2⟩ | ⟨h1, h2⟩
            · exact Or.inl ⟨h1, by rw [hvalo _ hmv]; exact h2⟩
            · exact Or.inr ⟨h1, by rw [hvalo _ hmv]; exact h2⟩
          have hnegu : litFalse s₂.value (-u) := by
            by_cases hpos : 0 < u
            · refine Or.inl ⟨by omega, ?_⟩
              have : (-u).natAbs = u.natAbs := by omega
              rw [this, hvalu, if_pos hpos]
            · refine Or.inr ⟨by omega, ?_⟩
              have : (-u).natAbs = u.natAbs := by omega
              rw [this, hvalu, if_neg hpos]
          rcases hres : rescan s₂.value s₂.formula 0 q' (seen.erase u)
            with j | ⟨q₂, seen₂⟩
          · rw [hres] at h
            dsimp only at h
            injection h with h'
            rw [Prod.mk.injEq] at h'
            obtain ⟨hr, hs₁⟩ := h'
            obtain ⟨k, c, hget, hj, hfals⟩ :=
              rescan_error_spec s₂.value s₂.formula 0 q' (seen.erase u) j hres
            have hvaleq : s₁.value = s₂.value := by
              rw [← hs₁]
              split <;> rfl
            have hEv₁ : PropEvolve lvl s s₁ := by
              rw [← hs₁]
              split
              · exact hEv.withKappa _
              · exact hEv
            refine ⟨hEv₁, Or.inr ⟨by omega, c, ?_, ?_⟩, ?_⟩
            · rw [← hr, getClause?, if_pos (by omega), hj]
              have : ((0 : Int) + (k : Int)).toNat = k := by omega
              rw [this]
              exact hget
            · rw [hvaleq]
              exact hfals
            · intro hc
              exact absurd hc (by omega)
          · rw [hres] at h
            dsimp only at h
            have htsync : ∀ l : Int, l ∈ seen.erase u ↔ ∃ a', (l, a') ∈ q' := by
              intro l
              rw [hnds.mem_erase_iff]
              constructor
              · rintro ⟨hlu, hlm⟩
                obtain ⟨a', ha'⟩ := (hsync l).mp hlm
                rcases List.mem_cons.mp ha' with hh | hh
                · injection hh with hh₁ hh₂
                  exact absurd hh₁ hlu
                · exact ⟨a', hh⟩
              · rintro ⟨a', ha'⟩
                have hlm : l ∈ seen := (hsync l).mpr ⟨a', List.mem_cons_of_mem _ ha'⟩
                have hlu : l ≠ u := by
                  intro hc
                  rw [List.map_cons] at hndq
                  have := List.nodup_cons.mp hndq
                  exact this.1 (List.mem_map.mpr ⟨(l, a'), ha', hc⟩)
                exact ⟨hlu, hlm⟩
            have hndq' : (q'.map Prod.fst).Nodup := by
              rw [List.map_cons] at hndq
              exact (List.nodup_cons.mp hndq).2
            have hnds' : (seen.erase u).Nodup := hnds.erase u
            obtain ⟨hnf₂, hall₂, hgrow₂, ⟨newE, hq₂⟩, hentry₂, hsync₂, hndq₂, hnds₂⟩ :=
              rescan_ok_spec s₂.value s₂.formula 0 q' (seen.erase u) q₂ seen₂ hres
                htsync hndq' hnds'
            have hwf₂ : formulaWF s₂ := hwf
            have hQ₂ : ∀ p ∈ q₂, queueEntryOK s₂ p := by
              intro p hp
              rcases hentry₂ p hp with hold | ⟨k, c, hget, hoff, hunit⟩
              · obtain ⟨c_p, hgp, hpc, hp0, hpothers⟩ :=
                  hQ p (List.mem_cons_of_mem _ hold)
                have hpne : p.1 ≠ u := by
                  intro hc
                  rw [List.map_cons] at hndq
                  have := List.nodup_cons.mp hndq
                  exact this.1 (List.mem_map.mpr ⟨p, hold, hc⟩)
                have hvarne : p.1.natAbs ≠ u.natAbs := by
                  intro hc
                  have hpnu : p.1 = -u := by omega
                  have hfalsp : clauseFalsified s₂.value c_p := by
                    intro m hm
                    by_cases hmp : m = p.1
                    · rw [hmp, hpnu]
                      exact hnegu
                    · exact hfalse_pres m (hpothers m hm hmp)
                  exact hnf₂ c_p (getClause?_mem s₂.formula p.2 c_p hgp) hfalsp
                refine ⟨c_p, hgp, hpc, by rw [hvalo _ hvarne]; exact hp0, ?_⟩
                intro m hm hmp
                exact hfalse_pres m (hpothers m hm hmp)
              · have hcmem : c ∈ s₂.formula := List.get?_mem hget
                obtain ⟨h0c, hndc⟩ := hwf₂ c hcmem
                have hndlit : c.Nodup := List.Nodup.of_map _ hndc
                obtain ⟨hin, hz, hoth⟩ :=
                  (checkClauseStatus_unit_iff s₂.value c hEv.valueWF₁ h0c hndlit p.1).mp
                    hunit
                refine ⟨c, ?_, hin, hz, hoth⟩
                rw [getClause?, if_pos (by omega), hoff]
                have : ((0 : Int) + (k : Int)).toNat = k := by omega
                rw [this]
                exact hget
            obtain ⟨hEvIH, hresIH, h111IH⟩ :=
              ih s₂ q₂ seen₂ r s₁ h hwf₂ hEv.valueWF₁ hsync₂ hndq₂ hnds₂ hQ₂ hnf₂
                hall₂ hEv.nodupAssigned
            refine ⟨hEv.trans hEvIH, ?_, h111IH⟩
            rcases hresIH with hh | ⟨hr0, c, hgc, hfc⟩
            · exact Or.inl hh
            · exact Or.inr ⟨hr0, c, hgc, hfc⟩

theorem unitPropagation_spec (fuel : Nat) (s : Solver) (lvl : Int) (r : Int)
    (s₁ : Solver) (h : unitPropagation fuel s lvl = some (r, s₁))
    (hwf : formulaWF s) (hv : valueWF s) (hnf : noFalsified s)
    (hnda : s.assignedLits.Nodup) :
    PropEvolve lvl s s₁ ∧
    (r = -111 ∨ (0 ≤ r ∧ ∃ c, getClause? s.formula r = some c ∧
      clauseFalsified s₁.value c)) ∧
    (r = -111 → noFalsified s₁ ∧ noUnit s₁) := by
  rw [unitPropagation] at h
  rcases hqs : findUnitScan s.value s.formula 0 [] [] with ⟨Q, S⟩
  rw [hqs] at h
  dsimp only at h
  obtain ⟨hall0, _hgrow, _happ, hentry0, hsync0, hndq0, hnds0⟩ :=
    findUnitScan_spec s.value s.formula 0 [] [] (by simp) (by simp) (by simp)
  rw [hqs] at hall0 hentry0 hsync0 hndq0 hnds0
  dsimp only at hall0 hentry0 hsync0 hndq0 hnds0
  have hQ0 : ∀ p ∈ Q, queueEntryOK s p := by
    intro p hp
    rcases hentry0 p hp with hmem | ⟨k, c, hget, hoff, hunit⟩
    · cases hmem
    · have hcmem : c ∈ s.formula := List.get?_mem hget
      obtain ⟨h0c, hndc⟩ := hwf c hcmem
      obtain ⟨hin, hz, hoth⟩ :=
        (checkClauseStatus_unit_iff s.value c hv h0c
          (List.Nodup.of_map _ hndc) p.1).mp hunit
      refine ⟨c, ?_, hin, hz, hoth⟩
      rw [getClause?, if_pos (by omega), hoff]
      have hk : ((0 : Int) + (k : Int)).toNat = k := by omega
      rw [hk]
      exact hget
  exact unitPropLoop_spec lvl fuel s Q S r s₁ h hwf hv hsync0 hndq0 hnds0 hQ0
    hnf hall0 hnda

/-- C4: whenever `unit_propagation` returns a nonnegative id, that id
names a clause of the formula that is falsified in the state at return
(early return on conflict), and it returns the sentinel -111 only when
no clause of the formula is falsified — indeed none is unit either —
in the state at return. Stated for scan-consistent starting states:
wellformed clause database, three-valued assignment, no falsified
clause at entry, duplicate-free assigned set. -/
theorem C4_unit_propagation_conflict (fuel : Nat) (s : Solver) (lvl : Int)
    (r : Int) (s₁ : Solver) (h : unitPropagation fuel s lvl = some (r, s₁))
    (hwf : formulaWF s) (hv : valueWF s) (hnf : noFalsified s)
    (hnda : s.assignedLits.Nodup) :
    (r = -111 ∨ (0 ≤ r ∧ ∃ c, getClause? s.formula r = some c ∧
      clauseFalsified s₁.value c)) ∧
    (r = -111 → noFalsified s₁ ∧ noUnit s₁) := by
  obtain ⟨_, h₂, h₃⟩ := unitPropagation_spec fuel s lvl r s₁ h hwf hv hnf hnda
  exact ⟨h₂, h₃⟩

def c4State : Solver :=
  { initSolver [[1], [-1, 2]] 2 .order false false false with
    assignmentHistory := [(0, [])] }

/-- Witness for C4: propagating `[[1], [-1, 2]]` from the empty
assignment, with every hypothesis discharged by computation. -/
theorem C4_unit_propagation_conflict_witness :
    ∃ (r : Int) (s₁ : Solver), unitPropagation 4 c4State 0 = some (r, s₁) ∧
      (r = -111 ∨ (0 ≤ r ∧ ∃ c, getClause? c4State.formula r = some c ∧
        clauseFalsified s₁.value c)) ∧
      (r = -111 → noFalsified s₁ ∧ noUnit s₁) :=
  ⟨-111, ((unitPropagation 4 c4State 0).getD (0, c4State)).2, rfl,
    C4_unit_propagation_conflict 4 c4State 0 (-111)
      ((unitPropagation 4 c4State 0).getD (0, c4State)).2 rfl (by decide)
      (fun _ => Or.inr (Or.inl rfl)) (by decide) (by decide)⟩

/-- A state with one original clause and one freshly learned clause:
`new_clause_limit` is `int(1/5) = 0`, so the restart trigger
`len(learned) > limit` fires the moment the first clause is learned. -/
def c7State : Solver :=
  { initSolver [[1, 2]] 2 .vsids false false true with
    formula := [[1, 2], [-1, 2]]
    sortedOriginalFormulaSet := [[1, 2]]
    sortedNewClauseSet := [[-1, 2]] }

/-- C7 fails in the code: with a single learned clause the trigger
fires (`0 < 1`), but `restart_and_forget` sets
`num_new_clause_to_keep = int(1/2) = 0`, so the very first iteration of
the heap loop takes the `else` branch and evaluates `max_heap[0]` on the
empty heap — an IndexError (modelled by `none`) instead of forgetting
`⌊1/2⌋ = 0` clauses and restarting. -/
theorem C7_restart_forget_crash :
    restartTrigger c7State = true ∧ restartAndForget c7State = none := by
  exact ⟨by with_unfolding_all decide, by with_unfolding_all rfl⟩

/-- A state reachable by propagating the learned unit clause `[3]` (id 1)
at level 0: variable 3 is assigned true at level 0 with antecedent 1, and
that antecedent is valid (the clause contains the assigned literal and
nothing else). The learned set holds `[3]` and `[-2, -1]`, the latter
with the higher mean activity. -/
def c8State : Solver :=
  { initSolver [[1, 3], [3], [-2, -1]] 3 .order false false true with
    sortedOriginalFormulaSet := [[1, 3]]
    sortedNewClauseSet := [[3], [-2, -1]]
    assignedLits := [3]
    value := fun v => if v = 3 then 1 else 0
    antecedent := fun v => if v = 3 then 1 else -1
    decisionLevel := fun v => if v = 3 then 0 else -1
    vsidsActivity := fun l => if l = 3 then 0 else 1
    assignmentHistory := [(0, [3])] }

/-- C8 fails in the code: `restart_and_forget` drops the learned clause
`[3]` (lowest mean activity) and rebuilds the formula by filtering, but
never remaps the stored antecedent ids. Variable 3 stays assigned after
the backtrack to level 0, its antecedent id 1 now denotes the shifted
clause `[-2, -1]`, which does not contain the literal that assigned
variable 3 — even though the antecedent was valid before the call. -/
theorem C8_forget_antecedent_integrity :
    (∃ c₀, getClause? c8State.formula (c8State.antecedent 3) = some c₀ ∧
      assignedLit c8State 3 ∈ c₀ ∧
      ∀ m ∈ c₀, m ≠ assignedLit c8State 3 → litFalse c8State.value m) ∧
    ∃ s₁, restartAndForget c8State = some s₁ ∧ 3 ∈ s₁.assignedLits ∧
      s₁.value 3 = c8State.value 3 ∧ s₁.antecedent 3 = 1 ∧
      ∃ c, getClause? s₁.formula 1 = some c ∧ assignedLit s₁ 3 ∉ c := by
  refine ⟨⟨[3], rfl, by decide, by decide⟩,
    (restartAndForget c8State).getD c8State, by with_unfolding_all rfl,
    by with_unfolding_all decide, by with_unfolding_all decide,
    by with_unfolding_all decide, [-2, -1], by with_unfolding_all rfl,
    by with_unfolding_all decide⟩

theorem mem_slInsert (x m : Int) : ∀ ys : List Int, m ∈ slInsert x ys ↔ m = x ∨ m ∈ ys := by
  intro ys
  induction ys with
  | nil => simp [slInsert]
  | cons y ys ih =>
    rw [slInsert]
    by_cases h1 : x < y
    · rw [if_pos h1]
      simp [List.mem_cons]
    · rw [if_neg h1]
      by_cases h2 : x = y
      · rw [if_pos h2]
        subst h2
        simp only [List.mem_cons]
        tauto
      · rw [if_neg h2]
        simp only [List.mem_cons, ih]
        tauto

theorem slInsert_sorted (x : Int) : ∀ ys : List Int, ys.Sorted (· < ·) →
    (slInsert x ys).Sorted (· < ·) := by
  intro ys
  induction ys with
  | nil => intro _; simp [slInsert]
  | cons y ys ih =>
    intro hs
    obtain ⟨hy, hs'⟩ := List.sorted_cons.mp hs
    rw [slInsert]
    by_cases h1 : x < y
    · rw [if_pos h1]
      refine List.sorted_cons.mpr ⟨?_, hs⟩
      intro b hb
      rcases List.mem_cons.mp hb with rfl | hb
      · exact h1
      · exact lt_trans h1 (hy b hb)
    · rw [if_neg h1]
      by_cases h2 : x = y
      · rw [if_pos h2]
        exact hs
      · rw [if_neg h2]
        refine List.sorted_cons.mpr ⟨?_, ih hs'⟩
        intro b hb
        rcases (mem_slInsert x b ys).mp hb with rfl | hb
        · omega
        · exact hy b hb

theorem canon_go (c : List Int) : ∀ acc : List Int,
    (∀ m, m ∈ c.foldl (fun a x => slInsert x a) acc ↔ m ∈ acc ∨ m ∈ c) ∧
    (acc.Sorted (· < ·) → (c.foldl (fun a x => slInsert x a) acc).Sorted (· < ·)) := by
  induction c with
  | nil => intro acc; simp
  | cons x c ih =>
    intro acc
    rw [List.foldl_cons]
    constructor
    · intro m
      rw [(ih (slInsert x acc)).1 m, mem_slInsert]
      simp only [List.mem_cons]
      tauto
    · intro hs
      exact (ih (slInsert x acc)).2 (slInsert_sorted x acc hs)

theorem mem_canon (m : Int) (c : List Int) : m ∈ canon c ↔ m ∈ c := by
  rw [canon, (canon_go c []).1 m]
  simp

theorem canon_sorted (c : List Int) : (canon c).Sorted (· < ·) :=
  (canon_go c []).2 (by simp)

theorem map_natAbs_nodup_inj {cl : List Int} (h : (cl.map Int.natAbs).Nodup)
    {a b : Int} (ha : a ∈ cl) (hb : b ∈ cl) (hab : a.natAbs = b.natAbs) : a = b :=
  List.inj_on_of_nodup_map h ha hb hab

/-- The pure-insertion phase of the `resolve` fold: when no literal of the
processed clause slice has its negation in the accumulator (and the slice
has pairwise distinct variables), every step takes the insertion branch. -/
theorem resolve_insert_phase (cl : List Int) : ∀ acc : List Int,
    (∀ m ∈ cl, -m ∉ acc) → (cl.map Int.natAbs).Nodup →
    (∀ m, m ∈ cl.foldl
        (fun acc l => if -l ∈ acc then acc.erase (-l) else slInsert l acc) acc ↔
      m ∈ acc ∨ m ∈ cl) ∧
    (acc.Sorted (· < ·) → (cl.foldl
        (fun acc l => if -l ∈ acc then acc.erase (-l) else slInsert l acc) acc).Sorted
      (· < ·)) := by
  induction cl with
  | nil =>
    intro acc _ _
    simp
  | cons c cl ih =>
    intro acc hnc hvars
    rw [List.foldl_cons]
    have hcne : -c ∉ acc := hnc c (List.mem_cons_self c cl)
    rw [if_neg hcne]
    rw [List.map_cons] at hvars
    have hvars' : (cl.map Int.natAbs).Nodup := (List.nodup_cons.mp hvars).2
    have hnc' : ∀ m ∈ cl, -m ∉ slInsert c acc := by
      intro m hm hmem
      rcases (mem_slInsert c (-m) acc).mp hmem with he | hin
      · have h3 : m.natAbs = c.natAbs := by omega
        exact (List.nodup_cons.mp hvars).1 (h3 ▸ List.mem_map.mpr ⟨m, hm, rfl⟩)
      · exact hnc m (List.mem_cons_of_mem _ hm) hin
    obtain ⟨hmem, hsort⟩ := ih (slInsert c acc) hnc' hvars'
    refine ⟨?_, fun hs => hsort (slInsert_sorted c acc hs)⟩
    intro m
    rw [hmem m, mem_slInsert]
    simp only [List.mem_cons]
    tauto

/-- `resolve` when the only complementary pair between the two clauses is
`(t, -t)`: the result is exactly (first minus `-t`) ∪ (second minus `t`),
and stays sorted. -/
theorem resolve_spec (learnt cl : List Int) (t : Int)
    (hsorted : learnt.Sorted (· < ·)) (ht : t ∈ cl) (hmt : -t ∈ learnt)
    (hvars : (cl.map Int.natAbs).Nodup)
    (hoth : ∀ m ∈ cl, m ≠ t → -m ∉ learnt) :
    (∀ m, m ∈ resolve learnt cl ↔
      ((m ∈ learnt ∧ m ≠ -t) ∨ (m ∈ cl ∧ m ≠ t))) ∧
    (resolve learnt cl).Sorted (· < ·) := by
  obtain ⟨pre, suf, hcl⟩ := List.append_of_mem ht
  subst hcl
  have htpre : t ∉ pre := by
    intro hc
    rw [List.map_append, List.map_cons] at hvars
    exact List.disjoint_of_nodup_append hvars
      (List.mem_map.mpr ⟨t, hc, rfl⟩) (List.mem_cons_self _ _)
  have htsuf : t ∉ suf := by
    intro hc
    rw [List.map_append, List.map_cons] at hvars
    exact (List.nodup_cons.mp hvars.of_append_right).1 (List.mem_map.mpr ⟨t, hc, rfl⟩)
  have hntpre : -t ∉ pre := by
    intro hc
    rw [List.map_append, List.map_cons] at hvars
    refine List.disjoint_of_nodup_append hvars
      (List.mem_map.mpr ⟨-t, hc, ?_⟩) (List.mem_cons_self _ _)
    omega
  have hntsuf : -t ∉ suf := by
    intro hc
    rw [List.map_append, List.map_cons] at hvars
    refine (List.nodup_cons.mp hvars.of_append_right).1 (List.mem_map.mpr ⟨-t, hc, ?_⟩)
    omega
  have hsufpre : ∀ m ∈ suf, -m ∉ pre := by
    intro m hm hc
    rw [List.map_append, List.map_cons] at hvars
    refine List.disjoint_of_nodup_append hvars
      (List.mem_map.mpr ⟨-m, hc, rfl⟩) (List.mem_cons_of_mem _ ?_)
    have : (-m).natAbs = m.natAbs := by omega
    rw [this]
    exact List.mem_map.mpr ⟨m, hm, rfl⟩
  have hprend : (pre.map Int.natAbs).Nodup := by
    rw [List.map_append] at hvars
    exact hvars.of_append_left
  have hsufnd : (suf.map Int.natAbs).Nodup := by
    rw [List.map_append, List.map_cons] at hvars
    exact (List.nodup_cons.mp hvars.of_append_right).2
  rw [resolve, List.foldl_append, List.foldl_cons]
  have hncpre : ∀ m ∈ pre, -m ∉ learnt := by
    intro m hm
    exact hoth m (List.mem_append_left _ hm) (fun he => htpre (he ▸ hm))
  obtain ⟨hm₁, hs₁c⟩ := resolve_insert_phase pre learnt hncpre hprend
  have hs₁ := hs₁c hsorted
  have hmt₁ : -t ∈ pre.foldl
      (fun acc l => if -l ∈ acc then acc.erase (-l) else slInsert l acc) learnt :=
    (hm₁ (-t)).mpr (Or.inl hmt)
  rw [if_pos hmt₁]
  set acc₁ := pre.foldl
    (fun acc l => if -l ∈ acc then acc.erase (-l) else slInsert l acc) learnt with hacc₁
  have hnd₁ : acc₁.Nodup := hs₁.nodup
  have hm₂ : ∀ m : Int, m ∈ acc₁.erase (-t) ↔ m ≠ -t ∧ m ∈ acc₁ :=
    fun m => hnd₁.mem_erase_iff
  have hs₂ : (acc₁.erase (-t)).Sorted (· < ·) :=
    hs₁.sublist (List.erase_sublist (-t) acc₁)
  have hnc₂ : ∀ m ∈ suf, -m ∉ acc₁.erase (-t) := by
    intro m hm hc
    obtain ⟨_, hin₁⟩ := (hm₂ (-m)).mp hc
    rcases (hm₁ (-m)).mp hin₁ with hl | hp
    · exact hoth m (List.mem_append_right _ (List.mem_cons_of_mem _ hm))
        (fun he => htsuf (he ▸ hm)) hl
    · exact hsufpre m hm hp
  obtain ⟨hm₃, hs₃⟩ := resolve_insert_phase suf (acc₁.erase (-t)) hnc₂ hsufnd
  refine ⟨?_, hs₃ hs₂⟩
  intro m
  rw [hm₃ m, hm₂ m, hm₁ m]
  constructor
  · rintro (⟨hne, hl | hp⟩ | hsf)
    · exact Or.inl ⟨hl, hne⟩
    · exact Or.inr ⟨List.mem_append_left _ hp, fun he => htpre (he ▸ hp)⟩
    · exact Or.inr ⟨List.mem_append_right _ (List.mem_cons_of_mem _ hsf),
        fun he => htsuf (he ▸ hsf)⟩
  · rintro (⟨hl, hne⟩ | ⟨hc, hne⟩)
    · exact Or.inl ⟨hne, Or.inl hl⟩
    · rcases List.mem_append.mp hc with hp | hts
      · exact Or.inl ⟨fun he => hntpre (he ▸ hp), Or.inr hp⟩
      · rcases List.mem_cons.mp hts with rfl | hsf
        · exact absurd rfl hne
        · exact Or.inr hsf

theorem litTrue_neg_iff (value : Nat → Int) (m : Int) :
    litTrue value (-m) ↔ litFalse value m := by
  unfold litTrue litFalse
  rw [Int.natAbs_neg]
  constructor
  · rintro (⟨h1, h2⟩ | ⟨h1, h2⟩)
    · exact Or.inr ⟨by omega, h2⟩
    · exact Or.inl ⟨by omega, h2⟩
  · rintro (⟨h1, h2⟩ | ⟨h1, h2⟩)
    · exact Or.inr ⟨by omega, h2⟩
    · exact Or.inl ⟨by omega, h2⟩

theorem litTrue_value_ne (value : Nat → Int) (p : Int) (h : litTrue value p) :
    value p.natAbs ≠ 0 := by
  rcases h with ⟨_, h2⟩ | ⟨_, h2⟩ <;> omega

theorem litFalse_value_ne (value : Nat → Int) (p : Int) (h : litFalse value p) :
    value p.natAbs ≠ 0 := by
  rcases h with ⟨_, h2⟩ | ⟨_, h2⟩ <;> omega

theorem litTrue_assignedLit (s : Solver) (p : Int) (h : litTrue s.value p) :
    assignedLit s p.natAbs = p := by
  unfold assignedLit
  rcases h with ⟨h1, h2⟩ | ⟨h1, h2⟩
  · rw [h2, if_neg (by decide)]
    omega
  · rw [h2, if_pos rfl]
    omega

theorem litFalse_neg_assignedLit (s : Solver) (l : Int) (h : litFalse s.value l) :
    assignedLit s l.natAbs = -l := by
  unfold assignedLit
  rcases h with ⟨h1, h2⟩ | ⟨h1, h2⟩
  · rw [h2, if_pos rfl]
    omega
  · rw [h2, if_neg (by decide)]
    omega

theorem findLatestAssignment_some (s : Solver) (hist learnt : List Int) (p : Int)
    (h : findLatestAssignment s hist learnt = some p) :
    p ∈ hist ∧ s.antecedent p.natAbs ≠ -1 ∧ (p ∈ learnt ∨ -p ∈ learnt) := by
  rw [findLatestAssignment] at h
  have hp := List.find?_some h
  have hmem := List.mem_of_find?_eq_some h
  rw [List.mem_reverse] at hmem
  simp only [Bool.and_eq_true, Bool.or_eq_true, decide_eq_true_eq] at hp
  exact ⟨hmem, hp.1, hp.2⟩

theorem findLatestAssignment_none (s : Solver) (hist learnt : List Int)
    (h : findLatestAssignment s hist learnt = none) :
    ∀ p ∈ hist, s.antecedent p.natAbs = -1 ∨ (p ∉ learnt ∧ -p ∉ learnt) := by
  rw [findLatestAssignment] at h
  intro p hp
  have h1 := List.find?_eq_none.mp h p (List.mem_reverse.mpr hp)
  simp only [Bool.and_eq_true, Bool.or_eq_true, decide_eq_true_eq] at h1
  by_cases ha : s.antecedent p.natAbs = -1
  · exact Or.inl ha
  · right
    constructor
    · intro hc
      exact h1 ⟨ha, Or.inl hc⟩
    · intro hc
      exact h1 ⟨ha, Or.inr hc⟩

/-- Validity of the stored antecedents: the clause recorded for an
assigned variable contains its assigned literal, and the remaining
literals are all false (they forced the assignment). -/
def anteOK (s : Solver) : Prop :=
  ∀ v : Nat, s.value v ≠ 0 → s.antecedent v ≠ -1 →
    ∃ cl, getClause? s.formula (s.antecedent v) = some cl ∧
      assignedLit s v ∈ cl ∧ ∀ m ∈ cl, m ≠ assignedLit s v → litFalse s.value m

/-- Everything one resolution step of `find_one_uip_cut` does, at a state
with valid antecedents and a sound history slice: the picked literal is
the true literal of a level-`lvl` variable, its negation sits in the cut,
and the resolvent removes exactly that negation while adding only false
literals of the antecedent clause — in particular the cut strictly
shrinks at the picked literal, so the while condition stays live. -/
theorem uipStep_facts (s : Solver) (lvl : Int) (hist learnt cl : List Int) (p : Int)
    (hwf : formulaWF s) (hante : anteOK s)
    (hsound : ∀ q ∈ hist, litTrue s.value q ∧ s.decisionLevel q.natAbs = lvl)
    (hfound : findLatestAssignment s hist learnt = some p)
    (hallf : ∀ l ∈ learnt, litFalse s.value l)
    (hsorted : learnt.Sorted (· < ·))
    (hcl : getClause? s.formula (s.antecedent p.natAbs) = some cl) :
    litTrue s.value p ∧ s.decisionLevel p.natAbs = lvl ∧ (-p) ∈ learnt ∧
    p ∈ cl ∧ (∀ m ∈ cl, m ≠ p → litFalse s.value m) ∧
    (∀ m, m ∈ resolve learnt cl ↔
      ((m ∈ learnt ∧ m ≠ -p) ∨ (m ∈ cl ∧ m ≠ p))) ∧
    (resolve learnt cl).Sorted (· < ·) ∧
    (∀ m ∈ resolve learnt cl, litFalse s.value m) ∧
    resolve learnt cl ≠ learnt := by
  obtain ⟨hphist, hante_ne, hmem⟩ := findLatestAssignment_some s hist learnt p hfound
  obtain ⟨htrue, hlvlp⟩ := hsound p hphist
  have hpne : p ∉ learnt := fun hc => litFalse_not_litTrue s.value p (hallf p hc) htrue
  have hmp : -p ∈ learnt := hmem.resolve_left hpne
  have hval0 : s.value p.natAbs ≠ 0 := litTrue_value_ne s.value p htrue
  obtain ⟨cl', hcl', hin', hoth'⟩ := hante p.natAbs hval0 hante_ne
  rw [hcl] at hcl'
  injection hcl' with he
  subst he
  have hassn : assignedLit s p.natAbs = p := litTrue_assignedLit s p htrue
  rw [hassn] at hin' hoth'
  have hclmem : cl ∈ s.formula := getClause?_mem _ _ _ hcl
  obtain ⟨h0cl, hvarscl⟩ := hwf cl hclmem
  have hoth2 : ∀ m ∈ cl, m ≠ p → -m ∉ learnt := by
    intro m hm hne hcon
    exact litFalse_not_litTrue s.value (-m) (hallf _ hcon)
      ((litTrue_neg_iff s.value m).mpr (hoth' m hm hne))
  obtain ⟨hmemiff, hsort'⟩ := resolve_spec learnt cl p hsorted hin' hmp hvarscl hoth2
  have hp0 : p ≠ 0 := h0cl p hin'
  have hnpr : -p ∉ resolve learnt cl := by
    intro hc
    rcases (hmemiff (-p)).mp hc with ⟨_, hne⟩ | ⟨hpc, _⟩
    · exact hne rfl
    · have : -p = p := map_natAbs_nodup_inj hvarscl hpc hin' (by omega)
      omega
  refine ⟨htrue, hlvlp, hmp, hin', hoth', hmemiff, hsort', ?_, ?_⟩
  · intro m hmr
    rcases (hmemiff m).mp hmr with ⟨hl, _⟩ | ⟨hm, hne⟩
    · exact hallf m hl
    · exact hoth' m hm hne
  · intro he
    rw [he] at hnpr
    exact hnpr hmp

theorem length_le_one_of_nodup_alleq {α : Type} (xs : List α) (hnd : xs.Nodup)
    (hall : ∀ a ∈ xs, ∀ b ∈ xs, a = b) : xs.length ≤ 1 := by
  match xs with
  | [] => simp
  | [x] => simp
  | x :: y :: zs =>
    exfalso
    have hxy : x = y := hall x (by simp) y (by simp)
    have h2 := List.nodup_cons.mp hnd
    refine h2.1 ?_
    rw [hxy]
    exact List.mem_cons_self y zs

theorem litFalse_eq_of_natAbs_eq (value : Nat → Int) (a b : Int)
    (ha : litFalse value a) (hb : litFalse value b)
    (hab : a.natAbs = b.natAbs) : a = b := by
  rcases ha with ⟨h1, h2⟩ | ⟨h1, h2⟩ <;> rcases hb with ⟨h3, h4⟩ | ⟨h3, h4⟩ <;>
    rw [hab] at h2 <;> omega

/-- At a nonzero conflict level, any result of the `find_one_uip_cut`
loop carries exactly one literal of the conflict level. -/
theorem uipLoop_count (s : Solver) (lvl : Int) (hist : List Int)
    (hlvl : lvl ≠ 0)
    (hwf : formulaWF s) (hante : anteOK s)
    (hhist : histFind? s lvl = some hist)
    (hsound : ∀ q ∈ hist, litTrue s.value q ∧ s.decisionLevel q.natAbs = lvl)
    (hcomp : ∀ v : Nat, s.value v ≠ 0 → s.decisionLevel v = lvl →
      assignedLit s v ∈ hist)
    (hdec : ∀ v w : Nat, s.value v ≠ 0 → s.value w ≠ 0 →
      s.decisionLevel v = lvl → s.decisionLevel w = lvl →
      s.antecedent v = -1 → s.antecedent w = -1 → v = w) :
    ∀ (fuel : Nat) (learnt prev parents L P : List Int),
      uipLoop s lvl fuel learnt prev parents = some (L, P) →
      (∀ l ∈ learnt, litFalse s.value l) →
      (∃ l ∈ learnt, s.decisionLevel l.natAbs = lvl) →
      learnt.Sorted (· < ·) →
      learnt ≠ prev →
      (L.filter (fun l => s.decisionLevel l.natAbs = lvl)).length = 1 := by
  intro fuel
  induction fuel with
  | zero =>
    intro learnt prev parents L P h
    cases h
  | succ n ih =>
    intro learnt prev parents L P h hallf hex hsorted hnep
    rw [uipLoop, if_neg hnep, hhist] at h
    dsimp only at h
    rcases hfind : findLatestAssignment s hist learnt with _ | p
    · rw [hfind] at h
      dsimp only at h
      injection h with h'
      rw [Prod.mk.injEq] at h'
      obtain ⟨hL, hP⟩ := h'
      subst hL
      have hnone := findLatestAssignment_none s hist learnt hfind
      have key : ∀ l ∈ learnt, s.decisionLevel l.natAbs = lvl →
          s.value l.natAbs ≠ 0 ∧ s.antecedent l.natAbs = -1 := by
        intro l hl hlv
        have hf := hallf l hl
        have hv0 : s.value l.natAbs ≠ 0 := litFalse_value_ne s.value l hf
        have hae : assignedLit s l.natAbs = -l := litFalse_neg_assignedLit s l hf
        have hal : assignedLit s l.natAbs ∈ hist := hcomp _ hv0 hlv
        rcases hnone _ hal with ha | hno
        · rw [hae, Int.natAbs_neg] at ha
          exact ⟨hv0, ha⟩
        · exfalso
          rw [hae, neg_neg] at hno
          exact hno.2 hl
      obtain ⟨l₀, hl₀, hl₀v⟩ := hex
      have hmemf : l₀ ∈ learnt.filter (fun l => s.decisionLevel l.natAbs = lvl) :=
        List.mem_filter.mpr ⟨hl₀, decide_eq_true hl₀v⟩
      have hge : 0 < (learnt.filter (fun l => s.decisionLevel l.natAbs = lvl)).length :=
        List.length_pos.mpr (List.ne_nil_of_mem hmemf)
      have hle : (learnt.filter (fun l => s.decisionLevel l.natAbs = lvl)).length ≤ 1 := by
        refine length_le_one_of_nodup_alleq _ (hsorted.nodup.filter _) ?_
        intro a ha b hb
        have ha' := List.mem_filter.mp ha
        have hb' := List.mem_filter.mp hb
        have hav : s.decisionLevel a.natAbs = lvl := of_decide_eq_true ha'.2
        have hbv : s.decisionLevel b.natAbs = lvl := of_decide_eq_true hb'.2
        obtain ⟨hva, haa⟩ := key a ha'.1 hav
        obtain ⟨hvb, hab⟩ := key b hb'.1 hbv
        have hvw := hdec _ _ hva hvb hav hbv haa hab
        exact litFalse_eq_of_natAbs_eq s.value a b (hallf a ha'.1) (hallf b hb'.1) hvw
      omega
    · rw [hfind] at h
      dsimp only at h
      split at h
      · rename_i h1
        injection h with h'
        rw [Prod.mk.injEq] at h'
        obtain ⟨hL, hP⟩ := h'
        subst hL
        exact h1.1
      · rename_i h1
        rcases hgc : getClause? s.formula (s.antecedent p.natAbs) with _ | cl
        · rw [hgc] at h
          exact absurd h (by simp)
        · rw [hgc] at h
          simp only [Option.bind_eq_bind, Option.some_bind] at h
          obtain ⟨htrue, hlvlp, hmp, hpcl, hothf, hmemiff, hsort', hallf', hne'⟩ :=
            uipStep_facts s lvl hist learnt cl p hwf hante hsound hfind hallf hsorted hgc
          have hlen1 : (learnt.filter
              (fun l => s.decisionLevel l.natAbs = lvl)).length ≠ 1 := by
            intro hc
            exact h1 ⟨hc, hlvl⟩
          obtain ⟨l₀, hl₀, hl₀v⟩ := hex
          have hex2 : ∃ l ∈ learnt, s.decisionLevel l.natAbs = lvl ∧ l ≠ -p := by
            by_contra hcon
            push_neg at hcon
            have hall2 : ∀ a ∈ learnt.filter (fun l => s.decisionLevel l.natAbs = lvl),
                ∀ b ∈ learnt.filter (fun l => s.decisionLevel l.natAbs = lvl),
                a = b := by
              intro a ha b hb
              have ha' := List.mem_filter.mp ha
              have hb' := List.mem_filter.mp hb
              have h2 := hcon a ha'.1 (of_decide_eq_true ha'.2)
              have h3 := hcon b hb'.1 (of_decide_eq_true hb'.2)
              rw [h2, h3]
            have hle := length_le_one_of_nodup_alleq _ (hsorted.nodup.filter _) hall2
            have hmemf : l₀ ∈ learnt.filter (fun l => s.decisionLevel l.natAbs = lvl) :=
              List.mem_filter.mpr ⟨hl₀, decide_eq_true hl₀v⟩
            have hge := List.length_pos.mpr (List.ne_nil_of_mem hmemf)
            omega
          obtain ⟨l₁, hl₁, hl₁v, hl₁ne⟩ := hex2
          refine ih (resolve learnt cl) learnt _ L P h hallf' ⟨l₁, ?_, hl₁v⟩ hsort' hne'
          exact (hmemiff l₁).mpr (Or.inl ⟨hl₁, hl₁ne⟩)

/-- C3: at any conflict level ℓ ≥ 1, the cut returned by
`find_one_uip_cut` contains exactly one literal whose variable is
assigned at level ℓ — the First-UIP literal. Stated for a falsified
conflict clause with a current-level literal, at a state with valid
antecedents, a sound and complete level-ℓ history slice, and at most one
decision variable at level ℓ — the state every conflict is analysed
in. -/
theorem C3_one_uip_literal (fuel : Nat) (s : Solver) (c₀ : List Int) (lvl : Int)
    (L P hist : List Int)
    (h : findOneUipCut fuel s c₀ lvl = some (L, P))
    (hlvl : 1 ≤ lvl)
    (hwf : formulaWF s) (hante : anteOK s)
    (hhist : histFind? s lvl = some hist)
    (hsound : ∀ q ∈ hist, litTrue s.value q ∧ s.decisionLevel q.natAbs = lvl)
    (hcomp : ∀ v : Nat, s.value v ≠ 0 → s.decisionLevel v = lvl →
      assignedLit s v ∈ hist)
    (hdec : ∀ v w : Nat, s.value v ≠ 0 → s.value w ≠ 0 →
      s.decisionLevel v = lvl → s.decisionLevel w = lvl →
      s.antecedent v = -1 → s.antecedent w = -1 → v = w)
    (hfals : clauseFalsified s.value c₀)
    (hcur : ∃ l ∈ c₀, s.decisionLevel l.natAbs = lvl) :
    (L.filter (fun l => s.decisionLevel l.natAbs = lvl)).length = 1 := by
  rw [findOneUipCut] at h
  have hlvl0 : lvl ≠ 0 := by omega
  refine uipLoop_count s lvl hist hlvl0 hwf hante hhist hsound hcomp hdec fuel
    (canon c₀) [] _ L P h ?_ ?_ (canon_sorted c₀) ?_
  · intro l hl
    exact hfals l ((mem_canon l c₀).mp hl)
  · obtain ⟨l, hl, hv⟩ := hcur
    exact ⟨l, (mem_canon l c₀).mpr hl, hv⟩
  · obtain ⟨l, hl, _⟩ := hcur
    exact List.ne_nil_of_mem ((mem_canon l c₀).mpr hl)

/-- A conflict state at level 1: the decision literal 1 propagated 2
through clause 0 (`[-1, 2]`), falsifying clause 1 (`[-1, -2]`). -/
def c3State : Solver :=
  { initSolver [[-1, 2], [-1, -2]] 2 .order false false false with
    assignedLits := [1, 2]
    value := fun v => if v = 1 then 1 else if v = 2 then 1 else 0
    antecedent := fun v => if v = 1 then -1 else if v = 2 then 0 else -1
    decisionLevel := fun v => if v = 1 then 1 else if v = 2 then 1 else -1
    assignmentHistory := [(0, []), (1, [1, 2])] }

/-- Witness for C3: analysing the conflict on `[-1, -2]` at level 1 in
`c3State`, with every hypothesis discharged at the concrete state. -/
theorem C3_one_uip_literal_witness :
    ∃ L P : List Int, findOneUipCut 3 c3State [-1, -2] 1 = some (L, P) ∧
      (L.filter (fun l => c3State.decisionLevel l.natAbs = 1)).length = 1 := by
  have honly : ∀ u : Nat, c3State.value u ≠ 0 → c3State.antecedent u = -1 → u = 1 := by
    intro u hu0 hau
    by_cases h1 : u = 1
    · exact h1
    · by_cases h2 : u = 2
      · subst h2
        exact absurd hau (by decide)
      · exfalso
        apply hu0
        show (if u = 1 then (1 : Int) else if u = 2 then 1 else 0) = 0
        rw [if_neg h1, if_neg h2]
  refine ⟨[-1], [-111], rfl, ?_⟩
  refine C3_one_uip_literal 3 c3State [-1, -2] 1 [-1] [-111] [1, 2] rfl (by decide)
    (by decide) ?_ rfl (by decide) ?_ ?_ (by decide) (by decide)
  · intro v hv0 hav
    by_cases h1 : v = 1
    · subst h1
      exact absurd (by decide) hav
    · by_cases h2 : v = 2
      · subst h2
        exact ⟨[-1, 2], rfl, by decide, by decide⟩
      · exfalso
        apply hv0
        show (if v = 1 then (1 : Int) else if v = 2 then 1 else 0) = 0
        rw [if_neg h1, if_neg h2]
  · intro v hv0 hlv
    by_cases h1 : v = 1
    · subst h1
      decide
    · by_cases h2 : v = 2
      · subst h2
        decide
      · exfalso
        apply hv0
        show (if v = 1 then (1 : Int) else if v = 2 then 1 else 0) = 0
        rw [if_neg h1, if_neg h2]
  · intro v w hv0 hw0 _ _ hav haw
    rw [honly v hv0 hav, honly w hw0 haw]

/-- At conflict level 0 the `find_one_uip_cut` loop always resolves down
to the empty clause: the single-literal break is disabled, every assigned
level-0 variable has an antecedent to resolve on, and pure-literal
variables (the only assigned variables away from level 0) never occur
falsified in any clause. -/
theorem uipLoop_empty (s : Solver) (hist : List Int)
    (hwf : formulaWF s) (hante : anteOK s)
    (hhist : histFind? s 0 = some hist)
    (hsound : ∀ q ∈ hist, litTrue s.value q ∧ s.decisionLevel q.natAbs = 0)
    (hcomp : ∀ v : Nat, s.value v ≠ 0 → s.decisionLevel v = 0 →
      assignedLit s v ∈ hist)
    (hdec0 : ∀ v : Nat, s.value v ≠ 0 → s.decisionLevel v = 0 →
      s.antecedent v ≠ -1)
    (hpure : ∀ v : Nat, s.value v ≠ 0 → s.decisionLevel v ≠ 0 →
      ∀ c ∈ s.formula, ∀ l ∈ c, l.natAbs = v → litTrue s.value l) :
    ∀ (fuel : Nat) (learnt prev parents L P : List Int),
      uipLoop s 0 fuel learnt prev parents = some (L, P) →
      (∀ l ∈ learnt, litFalse s.value l) →
      (∀ l ∈ learnt, ∃ c ∈ s.formula, l ∈ c) →
      learnt.Sorted (· < ·) →
      learnt ≠ prev →
      L = [] := by
  intro fuel
  induction fuel with
  | zero =>
    intro learnt prev parents L P h
    cases h
  | succ n ih =>
    intro learnt prev parents L P h hallf hocc hsorted hnep
    rw [uipLoop, if_neg hnep, hhist] at h
    dsimp only at h
    rcases hfind : findLatestAssignment s hist learnt with _ | p
    · rw [hfind] at h
      dsimp only at h
      injection h with h'
      rw [Prod.mk.injEq] at h'
      obtain ⟨hL, hP⟩ := h'
      subst hL
      have hnone := findLatestAssignment_none s hist learnt hfind
      rw [List.eq_nil_iff_forall_not_mem]
      intro l hl
      have hf := hallf l hl
      have hv0 : s.value l.natAbs ≠ 0 := litFalse_value_ne s.value l hf
      obtain ⟨c, hc, hlc⟩ := hocc l hl
      have hlv : s.decisionLevel l.natAbs = 0 := by
        by_contra hlvne
        exact litFalse_not_litTrue s.value l hf (hpure l.natAbs hv0 hlvne c hc l hlc rfl)
      have hae : assignedLit s l.natAbs = -l := litFalse_neg_assignedLit s l hf
      have hal : assignedLit s l.natAbs ∈ hist := hcomp _ hv0 hlv
      rcases hnone _ hal with ha | hno
      · rw [hae, Int.natAbs_neg] at ha
        exact hdec0 _ hv0 hlv ha
      · rw [hae, neg_neg] at hno
        exact hno.2 hl
    · rw [hfind] at h
      dsimp only at h
      split at h
      · rename_i h1
        exact absurd rfl h1.2
      · rcases hgc : getClause? s.formula (s.antecedent p.natAbs) with _ | cl
        · rw [hgc] at h
          exact absurd h (by simp)
        · rw [hgc] at h
          simp only [Option.bind_eq_bind, Option.some_bind] at h
          obtain ⟨htrue, hlvlp, hmp, hpcl, hothf, hmemiff, hsort', hallf', hne'⟩ :=
            uipStep_facts s 0 hist learnt cl p hwf hante hsound hfind hallf hsorted hgc
          refine ih (resolve learnt cl) learnt _ L P h hallf' ?_ hsort' hne'
          intro m hm
          rcases (hmemiff m).mp hm with ⟨hl, _⟩ | ⟨hmc, _⟩
          · exact hocc m hl
          · exact ⟨cl, getClause?_mem _ _ _ hgc, hmc⟩

/-- `conflict_analysis` at decision level 0 always reports UNSAT: the
1-UIP cut resolves to the empty clause, so the returned backtrack level
is -1 (and the random state is untouched). -/
theorem conflictAnalysis_level0 (fuel : Nat) (s : Solver) (cid : Int) (rng : Rng)
    (hist : List Int) (β : Int) (s₂ : Solver) (rng₂ : Rng)
    (hca : conflictAnalysis fuel s cid 0 rng = some (β, s₂, rng₂))
    (hwf : formulaWF s) (hante : anteOK s)
    (hhist : histFind? s 0 = some hist)
    (hsound : ∀ q ∈ hist, litTrue s.value q ∧ s.decisionLevel q.natAbs = 0)
    (hcomp : ∀ v : Nat, s.value v ≠ 0 → s.decisionLevel v = 0 →
      assignedLit s v ∈ hist)
    (hdec0 : ∀ v : Nat, s.value v ≠ 0 → s.decisionLevel v = 0 →
      s.antecedent v ≠ -1)
    (hpure : ∀ v : Nat, s.value v ≠ 0 → s.decisionLevel v ≠ 0 →
      ∀ c ∈ s.formula, ∀ l ∈ c, l.natAbs = v → litTrue s.value l)
    (hfals : ∀ c₀, getClause? s.formula cid = some c₀ →
      clauseFalsified s.value c₀) :
    β = -1 ∧ rng₂ = rng := by
  rw [conflictAnalysis] at hca
  rcases hc₀ : getClause? s.formula cid with _ | c₀
  · rw [hc₀] at hca
    exact absurd hca (by simp)
  · rw [hc₀] at hca
    simp only [Option.bind_eq_bind, Option.some_bind] at hca
    rcases hcut : findOneUipCut fuel s c₀ 0 with _ | ⟨L, P⟩
    · rw [hcut] at hca
      exact absurd hca (by simp)
    · rw [hcut] at hca
      simp only [Option.some_bind] at hca
      have hLnil : L = [] := by
        by_cases hnil : canon c₀ = []
        · rw [findOneUipCut, hnil] at hcut
          cases fuel with
          | zero => cases hcut
          | succ n =>
            rw [uipLoop, if_pos rfl] at hcut
            injection hcut with h'
            rw [Prod.mk.injEq] at h'
            exact h'.1.symm
        · refine uipLoop_empty s hist hwf hante hhist hsound hcomp hdec0 hpure fuel
            (canon c₀) [] [s.kappaConflictClause.getD (-111)] L P ?_ ?_ ?_
            (canon_sorted c₀) hnil
          · rw [findOneUipCut] at hcut
            exact hcut
          · intro l hl
            exact hfals c₀ hc₀ l ((mem_canon l c₀).mp hl)
          · intro l hl
            exact ⟨c₀, getClause?_mem _ _ _ hc₀, (mem_canon l c₀).mp hl⟩
      subst hLnil
      rw [if_pos rfl] at hca
      injection hca with h'
      rw [Prod.mk.injEq] at h'
      obtain ⟨hβ, hrest⟩ := h'
      rw [Prod.mk.injEq] at hrest
      exact ⟨hβ.symm, hrest.2.symm⟩

/-- C2: whenever unit propagation reports a conflict while the decision
level is 0, `conflict_analysis` returns the negative backtrack level -1
and the main loop's step returns the UNSAT verdict `False`, whatever the
continuation — including states produced by pure-literal elimination (the
`hpure` hypothesis lets assigned variables live away from level 0
exactly when their occurrences are all true). The state hypotheses are
those of any reachable level-0 state: valid antecedents, sound and
complete level-0 history, level-0 assignments all forced. -/
theorem C2_level0_conflict_unsat (fuel : Nat) (s sp : Solver) (cid : Int)
    (rng : Rng) (hist : List Int) (β : Int) (s₂ : Solver) (rng₂ : Rng)
    (hprop : unitPropagation fuel s 0 = some (cid, sp)) (hcid : 0 ≤ cid)
    (hwf : formulaWF s) (hv : valueWF s) (hnf : noFalsified s)
    (hnda : s.assignedLits.Nodup)
    (hante : anteOK sp)
    (hhist : histFind? sp 0 = some hist)
    (hsound : ∀ q ∈ hist, litTrue sp.value q ∧ sp.decisionLevel q.natAbs = 0)
    (hcomp : ∀ v : Nat, sp.value v ≠ 0 → sp.decisionLevel v = 0 →
      assignedLit sp v ∈ hist)
    (hdec0 : ∀ v : Nat, sp.value v ≠ 0 → sp.decisionLevel v = 0 →
      sp.antecedent v ≠ -1)
    (hpure : ∀ v : Nat, sp.value v ≠ 0 → sp.decisionLevel v ≠ 0 →
      ∀ c ∈ sp.formula, ∀ l ∈ c, l.natAbs = v → litTrue sp.value l)
    (hca : conflictAnalysis fuel sp cid 0 rng = some (β, s₂, rng₂)) :
    β = -1 ∧ ∀ recur, cdclStep recur fuel rng s 0 = some (false, s₂) := by
  obtain ⟨hev, hres, _⟩ := unitPropagation_spec fuel s 0 cid sp hprop hwf hv hnf hnda
  have hwfp : formulaWF sp := by
    intro c hc
    refine hwf c ?_
    rw [← hev.frame.1]
    exact hc
  have hfals : ∀ c₀, getClause? sp.formula cid = some c₀ →
      clauseFalsified sp.value c₀ := by
    intro c₀ hc₀
    rcases hres with h111 | ⟨_, c, hgc, hfc⟩
    · rw [h111] at hcid
      exact absurd hcid (by decide)
    · rw [hev.frame.1] at hc₀
      rw [hc₀] at hgc
      injection hgc with he
      rw [he]
      exact hfc
  obtain ⟨hβ, _⟩ := conflictAnalysis_level0 fuel sp cid rng hist β s₂ rng₂ hca
    hwfp hante hhist hsound hcomp hdec0 hpure hfals
  refine ⟨hβ, ?_⟩
  intro recur
  rw [cdclStep, hprop]
  simp only [Option.bind_eq_bind, Option.some_bind]
  rw [if_pos hcid, hca]
  simp only [Option.some_bind]
  rw [if_pos (show β < 0 by omega)]

/-- The formula `[[1], [-1]]` from the empty assignment: propagation at
level 0 assigns literal -1 (the last-queued unit) and the rescan reports
clause 0 falsified. -/
def c2State : Solver :=
  { initSolver [[1], [-1]] 1 .order false false false with
    assignmentHistory := [(0, [])] }

def c2sp : Solver := ((unitPropagation 4 c2State 0).getD (0, c2State)).2

def c2ca : Int × Solver × Rng :=
  (conflictAnalysis 4 c2sp 0 0 ⟨[], []⟩).getD (0, c2State, ⟨[], []⟩)

/-- Witness for C2: the level-0 conflict on `[[1], [-1]]`, with every
hypothesis discharged at the concrete states. -/
theorem C2_level0_conflict_unsat_witness :
    ∃ (s₂ : Solver) (rng₂ : Rng),
      unitPropagation 4 c2State 0 = some (0, c2sp) ∧
      conflictAnalysis 4 c2sp 0 0 ⟨[], []⟩ = some (-1, s₂, rng₂) ∧
      ∀ recur, cdclStep recur 4 ⟨[], []⟩ c2State 0 = some (false, s₂) := by
  have honly : ∀ v : Nat, c2sp.value v ≠ 0 → v = 1 := by
    intro v hv0
    by_contra h1
    apply hv0
    show (if v = 1 then (-1 : Int) else 0) = 0
    rw [if_neg h1]
  refine ⟨c2ca.2.1, c2ca.2.2, rfl, rfl, ?_⟩
  refine (C2_level0_conflict_unsat 4 c2State c2sp 0 ⟨[], []⟩ [-1] (-1) c2ca.2.1
    c2ca.2.2 rfl (by decide) (by decide) (fun _ => Or.inr (Or.inl rfl)) (by decide)
    (by decide) ?_ rfl (by decide) ?_ ?_ ?_ rfl).2
  · intro v hv0 hav
    rw [honly v hv0]
    exact ⟨[-1], rfl, by decide, by decide⟩
  · intro v hv0 _
    rw [honly v hv0]
    decide
  · intro v hv0 _
    rw [honly v hv0]
    decide
  · intro v hv0 hlv
    exfalso
    apply hlv
    rw [honly v hv0]
    decide

end CDCL
